import Mathlib

/-!
# Verification of the environment-to-configuration merger

Shallow embedding of `storm-config-from-env.py`: the tool loads an existing
nested YAML configuration, overlays values decoded from `STORM_`-prefixed
environment variables, resolves list/mapping conflicts, and writes the result
back preserving key-insertion order.

Python values are modelled by `Val`; Python dictionaries by ordered
association lists (`Assoc`) whose assignment semantics (`insertA`) updates an
existing key in place and appends a new key at the end, exactly as a Python
`dict`/`OrderedDict` does.  Python strings are Lean `String`s (in this Lean
version a `String` is a wrapper around `List Char`); the string operations
used by the script (`lower`, `strip`, `split`, `replace`, `startswith`,
`int()`, `float()`) are modelled by explicit functions on `List Char` below,
restricted to the ASCII fragment relevant for environment variables.
Floating-point values are never computed with by the script (they are only
type-tagged and passed through), so `Val.float` carries the accepted literal
(after whitespace stripping) as a stand-in for the IEEE value.
-/

set_option autoImplicit false

namespace StormCfg

/-- Model of a Python/YAML value as manipulated by the script. -/
inductive Val : Type where
  | null : Val
  | bool (b : Bool) : Val
  | int (n : Int) : Val
  | float (lit : String) : Val
  | str (s : String) : Val
  | list (xs : List Val) : Val
  | map (entries : List (String × Val)) : Val

/-- Ordered association list: the model of a Python `dict`/`OrderedDict`
(with string keys, the only kind this script produces or walks through). -/
abbrev Assoc : Type := List (String × Val)

/-- `isinstance(v, list)` -/
def Val.isList : Val → Bool
  | .list _ => true
  | _ => false

/-- `isinstance(v, dict)` -/
def Val.isMap : Val → Bool
  | .map _ => true
  | _ => false

/-- `v is None` -/
def Val.isNull : Val → Bool
  | .null => true
  | _ => false

@[simp] theorem Val.isList_null : (Val.null).isList = false := rfl
@[simp] theorem Val.isList_bool (b : Bool) : (Val.bool b).isList = false := rfl
@[simp] theorem Val.isList_int (n : Int) : (Val.int n).isList = false := rfl
@[simp] theorem Val.isList_float (l : String) : (Val.float l).isList = false := rfl
@[simp] theorem Val.isList_str (s : String) : (Val.str s).isList = false := rfl
@[simp] theorem Val.isList_list (xs : List Val) : (Val.list xs).isList = true := rfl
@[simp] theorem Val.isList_map (m : List (String × Val)) : (Val.map m).isList = false := rfl
@[simp] theorem Val.isMap_null : (Val.null).isMap = false := rfl
@[simp] theorem Val.isMap_bool (b : Bool) : (Val.bool b).isMap = false := rfl
@[simp] theorem Val.isMap_int (n : Int) : (Val.int n).isMap = false := rfl
@[simp] theorem Val.isMap_float (l : String) : (Val.float l).isMap = false := rfl
@[simp] theorem Val.isMap_str (s : String) : (Val.str s).isMap = false := rfl
@[simp] theorem Val.isMap_list (xs : List Val) : (Val.list xs).isMap = false := rfl
@[simp] theorem Val.isMap_map (m : List (String × Val)) : (Val.map m).isMap = true := rfl
@[simp] theorem Val.isNull_null : (Val.null).isNull = true := rfl
@[simp] theorem Val.isNull_bool (b : Bool) : (Val.bool b).isNull = false := rfl
@[simp] theorem Val.isNull_int (n : Int) : (Val.int n).isNull = false := rfl
@[simp] theorem Val.isNull_float (l : String) : (Val.float l).isNull = false := rfl
@[simp] theorem Val.isNull_str (s : String) : (Val.str s).isNull = false := rfl
@[simp] theorem Val.isNull_list (xs : List Val) : (Val.list xs).isNull = false := rfl
@[simp] theorem Val.isNull_map (m : List (String × Val)) : (Val.map m).isNull = false := rfl

/-! ## Character-level models of the Python string operations -/

/-- Leading-and-trailing whitespace strip: Python `str.strip()` (ASCII fragment). -/
def stripWS (l : List Char) : List Char :=
  ((l.dropWhile Char.isWhitespace).reverse.dropWhile Char.isWhitespace).reverse

/-- Python `str.lower()` (ASCII fragment). -/
def pyLower (s : String) : String := ⟨s.data.map Char.toLower⟩

/-- Python `str.split(c)` for a one-character separator: keeps empty pieces,
`"".split(c) = [""]`. -/
def splitCh (c : Char) : List Char → List (List Char)
  | [] => [[]]
  | a :: r =>
    if a = c then [] :: splitCh c r
    else
      match splitCh c r with
      | h :: t => (a :: h) :: t
      | [] => [[a]]

/-- Python `s.replace("__", ".")`: one left-to-right pass over
non-overlapping double-underscore occurrences. -/
def replaceUU : List Char → List Char
  | [] => []
  | [c] => [c]
  | c1 :: c2 :: r =>
    if c1 = '_' ∧ c2 = '_' then '.' :: replaceUU r
    else c1 :: replaceUU (c2 :: r)

/-- Split on non-overlapping double-underscore occurrences (left-to-right),
keeping empty pieces.  Used to state what the decode transform achieves. -/
def splitUU : List Char → List (List Char)
  | [] => [[]]
  | [c] => [[c]]
  | c1 :: c2 :: r =>
    if c1 = '_' ∧ c2 = '_' then [] :: splitUU r
    else
      match splitUU (c2 :: r) with
      | h :: t => (c1 :: h) :: t
      | [] => [[c1]]

/-- Python `name.startswith(pfx)`. -/
def startsW (s pfx : String) : Bool :=
  decide (s.data.take pfx.data.length = pfx.data)

/-! ## `int()` and `float()` on strings (CPython acceptance semantics) -/

/-- Digit run with single underscores permitted between digits, accumulating
the base-10 value; entered after the first digit has been consumed. -/
def digitsAux (acc : Nat) : List Char → Option Nat
  | [] => some acc
  | '_' :: c :: rest =>
    if c.isDigit then digitsAux (acc * 10 + (c.toNat - 48)) rest else none
  | ['_'] => none
  | c :: rest =>
    if c.isDigit then digitsAux (acc * 10 + (c.toNat - 48)) rest else none

/-- A non-empty digit string, with CPython's rule that underscores may appear
only between digits; returns the base-10 value. -/
def digitsVal : List Char → Option Nat
  | [] => none
  | c :: rest => if c.isDigit then digitsAux (c.toNat - 48) rest else none

/-- CPython `int(s)` on a string: optional surrounding whitespace, optional
single leading sign, then digits (underscores between digits allowed). -/
def pyInt (s : String) : Option Int :=
  match stripWS s.data with
  | [] => none
  | c :: r =>
    if c = '+' then (digitsVal r).map (fun n => (n : Int))
    else if c = '-' then (digitsVal r).map (fun n => -(n : Int))
    else (digitsVal (c :: r)).map (fun n => (n : Int))

/-- Drop one leading `+`/`-` if present. -/
def stripSign1 (l : List Char) : List Char :=
  match l with
  | c :: r => if c = '+' ∨ c = '-' then r else l
  | [] => []

/-- Split at the first exponent marker `e`/`E` (dropping the marker). -/
def splitExp : List Char → List Char × Option (List Char)
  | [] => ([], none)
  | c :: r =>
    if c = 'e' ∨ c = 'E' then ([], some r)
    else
      let p := splitExp r
      (c :: p.1, p.2)

/-- Split at the first `.` (dropping it). -/
def splitDot1 : List Char → List Char × Option (List Char)
  | [] => ([], none)
  | c :: r =>
    if c = '.' then ([], some r)
    else
      let p := splitDot1 r
      (c :: p.1, p.2)

/-- Mantissa of a CPython float literal: `digits`, `digits.`, `.digits` or
`digits.digits` (each digit group following the underscore rule). -/
def mantOK (l : List Char) : Bool :=
  match splitDot1 l with
  | (i, none) => (digitsVal i).isSome
  | (i, some f) =>
    if i = [] then (digitsVal f).isSome
    else if f = [] then (digitsVal i).isSome
    else (digitsVal i).isSome && (digitsVal f).isSome

/-- Exponent part of a CPython float literal: optional sign then digits. -/
def expOK (l : List Char) : Bool :=
  (digitsVal (stripSign1 l)).isSome

/-- Numeric (non-inf/nan) CPython float literal, sign already stripped. -/
def floatNumOK (l : List Char) : Bool :=
  match splitExp l with
  | (m, none) => mantOK m
  | (m, some e) => mantOK m && expOK e

/-- CPython `float(s)` acceptance: optional surrounding whitespace, optional
sign, then `inf`/`infinity`/`nan` (case-insensitive) or a numeric literal.
Returns the whitespace-stripped literal as the representation of the value. -/
def pyFloat (s : String) : Option String :=
  let l := stripWS s.data
  let core := stripSign1 l
  if pyLower ⟨core⟩ = "inf" ∨ pyLower ⟨core⟩ = "infinity" ∨ pyLower ⟨core⟩ = "nan" then
    some ⟨l⟩
  else if floatNumOK core then some ⟨l⟩
  else none

/-! ## The value parser (`parse_value` / `parse_single_value`) -/

/-- `parse_single_value`: try `int(value)`, then `float(value)`, else keep
the string unchanged. -/
def parse_single_value (s : String) : Val :=
  match pyInt s with
  | some n => Val.int n
  | none =>
    match pyFloat s with
    | some lit => Val.float lit
    | none => Val.str s

/-- `parse_value`: empty string to None, case-insensitive `true`/`false` to
booleans, comma-containing strings to a list of trimmed, singly-parsed
pieces, otherwise a single parsed value. -/
def parse_value (s : String) : Val :=
  if s.data = [] then Val.null
  else if pyLower s = "true" then Val.bool true
  else if pyLower s = "false" then Val.bool false
  else if ',' ∈ s.data then
    Val.list ((splitCh ',' s.data).map (fun l => parse_single_value ⟨stripWS l⟩))
  else parse_single_value s

/-! ## Key path codec (`env_to_storm_config` key handling) -/

/-- One environment variable name: skip it unless it starts with the prefix,
otherwise strip the prefix, lowercase, and replace `__` by `.`. -/
def decodeKey (pfx name : String) : Option String :=
  if startsW name pfx then
    some ⟨replaceUU (pyLower ⟨name.data.drop pfx.data.length⟩).data⟩
  else none

/-- Insert one `(name, value)` pair into a list sorted by name
(Python `sorted` on the raw variable name, code-point lexicographic). -/
def insEnv (p : String × String) : List (String × String) → List (String × String)
  | [] => [p]
  | q :: t => if q.1 < p.1 then q :: insEnv p t else p :: q :: t

/-- `sorted(os.environ.items())` (names are unique in an environment). -/
def sortEnv : List (String × String) → List (String × String)
  | [] => []
  | p :: t => insEnv p (sortEnv t)

/-- `env_to_storm_config`: the ordered list of `(dotted key, parsed value)`
overrides produced from the environment. -/
def envToStormConfig (env : List (String × String)) : List (String × Val) :=
  (sortEnv env).filterMap fun kv =>
    (decodeKey "STORM_" kv.1).map fun k => (k, parse_value kv.2)

/-! ## Document tree (`get_nested_value` / `set_nested_value`) -/

/-- Python `key.split('.')` producing the segment list (never empty). -/
def pathKeys (k : String) : List String :=
  (splitCh '.' k.data).map fun l => String.mk l

/-- Association-list lookup (`k in d` / `d[k]`). -/
def lookupA : Assoc → String → Option Val
  | [], _ => none
  | (k', v) :: t, k => if k' = k then some v else lookupA t k

/-- Python `d[k] = v`: update an existing key in place (keeping its
position) or append a new key at the end. -/
def insertA : Assoc → String → Val → Assoc
  | [], k, v => [(k, v)]
  | (k', w) :: t, k, v =>
    if k' = k then (k, v) :: t else (k', w) :: insertA t k v

/-- Presence-aware path lookup: `entry m p = some v` iff walking `p` through
nested mappings reaches an entry holding `v`; `entry m [] = some (Val.map m)`.
Proof-side companion of `getNested` that distinguishes a stored null from an
absent path. -/
def entry : Assoc → List String → Option Val
  | m, [] => some (Val.map m)
  | m, k :: rest =>
    match lookupA m k with
    | none => none
    | some v =>
      match rest with
      | [] => some v
      | _ :: _ =>
        match v with
        | Val.map m' => entry m' rest
        | _ => none

/-- `get_nested_value`: walks the dotted path, returning Python `None`
(modelled `Val.null`) the moment a segment does not resolve inside a
mapping; never creates nodes. -/
def getNested (cfg : Assoc) : List String → Val
  | [] => Val.map cfg
  | k :: rest =>
    match lookupA cfg k with
    | none => Val.null
    | some v =>
      match rest with
      | [] => v
      | _ :: _ =>
        match v with
        | Val.map m' => getNested m' rest
        | _ => Val.null

/-- `set_nested_value`: walks the path creating an empty mapping at each
missing intermediate segment, then assigns at the final segment.  When an
intermediate (or the final container) holds a non-mapping value the Python
code raises a `TypeError`; that is the `none` result.  Failure is atomic in
the Python code as well: a raise can only happen before the first mapping is
created. -/
def setNested : Assoc → List String → Val → Option Assoc
  | _, [], _ => none
  | cfg, [k], v => some (insertA cfg k v)
  | cfg, k :: k' :: rest, v =>
    match lookupA cfg k with
    | none =>
      (setNested [] (k' :: rest) v).map fun child => insertA cfg k (Val.map child)
    | some (Val.map m) =>
      (setNested m (k' :: rest) v).map fun child => insertA cfg k (Val.map child)
    | some _ => none

/-! ## Merge engine (`main`) -/

/-- One loop iteration of `main`: look up the existing value, apply the
conflict policy, and either skip (`false`) or set and record (`true`). -/
def applyOverride (cfg : Assoc) (key : String) (v : Val) : Option (Assoc × Bool) :=
  let ks := pathKeys key
  let existing := getNested cfg ks
  if !existing.isNull then
    if existing.isList && !v.isList then some (cfg, false)
    else if existing.isMap && !v.isMap then some (cfg, false)
    else (setNested cfg ks v).map fun c => (c, true)
  else (setNested cfg ks v).map fun c => (c, true)

/-- The override loop of `main`: returns the final document and the accepted
(dotted) keys in processing order, or `none` when an iteration raised. -/
def applyAll : Assoc → List (String × Val) → Option (Assoc × List String)
  | cfg, [] => some (cfg, [])
  | cfg, (k, v) :: rest =>
    match applyOverride cfg k v with
    | none => none
    | some (cfg', acc) =>
      (applyAll cfg' rest).map fun p => (p.1, if acc then k :: p.2 else p.2)

/-- Python truthiness of the loaded YAML value (`if loaded:`). -/
def truthy : Val → Bool
  | .null => false
  | .bool b => b
  | .int n => n ≠ 0
  | .float lit =>
    -- float truthiness: 0.0 (any literal form, any exponent) is falsy,
    -- inf/infinity/nan are truthy
    let core := stripSign1 (stripWS lit.data)
    if pyLower ⟨core⟩ = "inf" ∨ pyLower ⟨core⟩ = "infinity" ∨ pyLower ⟨core⟩ = "nan" then
      true
    else
      let mant := (splitExp core).1
      !(mant.all fun c => c = '0' ∨ c = '.' ∨ c = '_')
  | .str s => s.data ≠ []
  | .list xs => !xs.isEmpty
  | .map m => !m.isEmpty

/-- `OrderedDict(loaded)` for a truthy loaded value: a mapping is taken as
is; a sequence is accepted when every element is a key/value pair (a 2-element
sequence whose first component is a string, or a 2-character string),
duplicates updating in place; anything else raises.  Documents with
non-string keys are outside this model's domain. -/
def toDict : Val → Option Assoc
  | .map m => some m
  | .list xs =>
    xs.foldlM
      (fun acc x =>
        match x with
        | Val.list [Val.str k, w] => some (insertA acc k w)
        | Val.str s =>
          match s.data with
          | [c1, c2] => some (insertA acc ⟨[c1]⟩ (Val.str ⟨[c2]⟩))
          | _ => none
        | _ => none)
      []
  | _ => none

/-- State of the existing configuration file: absent, present but not
YAML-parseable (`none`), or present with a parsed value (an empty file
parses to Python `None`, modelled `some Val.null`). -/
inductive FileState : Type where
  | absent : FileState
  | present (parsed : Option Val) : FileState

/-- The load step of `main`: `none` is the fatal path (caught exception,
`return 1`); falsy content leaves the fresh empty `OrderedDict`. -/
def loadBase : FileState → Option Assoc
  | .absent => some []
  | .present none => none
  | .present (some v) => if truthy v then toDict v else some []

/-- `main`, modelled as a function from the file state and the raw
environment to the exit code and the written document (`none` = nothing
written). -/
def mainModel (file : FileState) (env : List (String × String)) : Nat × Option Assoc :=
  match loadBase file with
  | none => (1, none)
  | some base =>
    match applyAll base (envToStormConfig env) with
    | none => (1, none)
    | some (final, _) => (0, some final)

/-! ## Basic lemmas about the ordered association list -/

theorem lookupA_insertA_self (m : Assoc) (k : String) (v : Val) :
    lookupA (insertA m k v) k = some v := by
  induction m with
  | nil => simp [insertA, lookupA]
  | cons hd t ih =>
    by_cases h : hd.1 = k
    · simp [insertA, h, lookupA]
    · simp [insertA, h, lookupA, ih]

theorem lookupA_insertA_ne (m : Assoc) (k k' : String) (v : Val) (h : k' ≠ k) :
    lookupA (insertA m k v) k' = lookupA m k' := by
  have hkk : k ≠ k' := fun hh => h hh.symm
  induction m with
  | nil => simp [insertA, lookupA, hkk]
  | cons hd t ih =>
    by_cases hk : hd.1 = k
    · have hd1 : hd.1 ≠ k' := by rw [hk]; exact hkk
      rw [insertA, if_pos hk, lookupA, lookupA, if_neg hkk, if_neg hd1]
    · rw [insertA, if_neg hk, lookupA, lookupA]
      by_cases hk' : hd.1 = k'
      · rw [if_pos hk', if_pos hk']
      · rw [if_neg hk', if_neg hk', ih]

theorem getNested_eq_entry : ∀ (p : List String) (m : Assoc),
    getNested m p = (entry m p).getD Val.null
  | [], _ => rfl
  | [k], m => by cases hl : lookupA m k <;> simp [getNested, entry, hl]
  | k :: k' :: r, m => by
    cases hl : lookupA m k with
    | none => simp [getNested, entry, hl]
    | some v =>
      cases v with
      | map m2 =>
        simp only [getNested, entry, hl]
        exact getNested_eq_entry (k' :: r) m2
      | null => simp [getNested, entry, hl]
      | bool b => simp [getNested, entry, hl]
      | int n => simp [getNested, entry, hl]
      | float l => simp [getNested, entry, hl]
      | str s => simp [getNested, entry, hl]
      | list xs => simp [getNested, entry, hl]

theorem entry_isSome_of_getNested {p : List String} {m : Assoc}
    (h : (getNested m p).isNull = false) : (entry m p).isSome := by
  rw [getNested_eq_entry] at h
  cases he : entry m p with
  | none => rw [he] at h; simp [Val.isNull] at h
  | some v => simp

/-! ## Effect and failure lemmas for `setNested` -/

theorem setNested_nil_isSome (p : List String) (v : Val) (h : p ≠ []) :
    ∃ m₂, setNested [] p v = some m₂ := by
  induction p with
  | nil => exact absurd rfl h
  | cons k rest ih =>
    cases rest with
    | nil => exact ⟨_, rfl⟩
    | cons k' r =>
      obtain ⟨c, hc⟩ := ih (by simp)
      exact ⟨insertA [] k (Val.map c), by simp [setNested, lookupA, hc]⟩

theorem entry_setNested_self {m m₂ : Assoc} {p : List String} {v : Val}
    (h : setNested m p v = some m₂) : entry m₂ p = some v := by
  induction p generalizing m m₂ with
  | nil => simp [setNested] at h
  | cons k rest ih =>
    cases rest with
    | nil =>
      simp [setNested] at h
      subst h
      simp [entry, lookupA_insertA_self]
    | cons k' r =>
      cases hl : lookupA m k with
      | none =>
        simp only [setNested, hl] at h
        cases hc : setNested [] (k' :: r) v with
        | none => rw [hc] at h; simp at h
        | some child =>
          rw [hc] at h
          simp at h
          subst h
          simp only [entry, lookupA_insertA_self]
          exact ih hc
      | some w =>
        cases w with
        | map m' =>
          simp only [setNested, hl] at h
          cases hc : setNested m' (k' :: r) v with
          | none => rw [hc] at h; simp at h
          | some child =>
            rw [hc] at h
            simp at h
            subst h
            simp only [entry, lookupA_insertA_self]
            exact ih hc
        | null => simp only [setNested, hl] at h; simp at h
        | bool b => simp only [setNested, hl] at h; simp at h
        | int n => simp only [setNested, hl] at h; simp at h
        | float l => simp only [setNested, hl] at h; simp at h
        | str s => simp only [setNested, hl] at h; simp at h
        | list xs => simp only [setNested, hl] at h; simp at h

theorem entry_nil_cons (x : String) (xs : List String) : entry [] (x :: xs) = none := rfl

theorem entry_root (m : Assoc) : entry m [] = some (Val.map m) := rfl

theorem entry_cons_nil (m : Assoc) (k : String) : entry m [k] = lookupA m k := by
  cases hl : lookupA m k <;> simp [entry, hl]

theorem entry_cons_ne {u : List String} (m : Assoc) (k : String) (h : u ≠ []) :
    entry m (k :: u) =
      match lookupA m k with
      | none => none
      | some (Val.map m') => entry m' u
      | some _ => none := by
  cases u with
  | nil => exact absurd rfl h
  | cons c r =>
    cases hl : lookupA m k with
    | none => simp [entry, hl]
    | some v => cases v <;> simp [entry, hl]

theorem entry_cons_congr {m₁ m : Assoc} {a : String} (h : lookupA m₁ a = lookupA m a)
    (q : List String) : entry m₁ (a :: q) = entry m (a :: q) := by
  simp only [entry]
  rw [h]

theorem setNested_cons_ne {u : List String} (m : Assoc) (k : String) (v : Val)
    (h : u ≠ []) :
    setNested m (k :: u) v =
      match lookupA m k with
      | none => (setNested [] u v).map fun c => insertA m k (Val.map c)
      | some (Val.map m') => (setNested m' u v).map fun c => insertA m k (Val.map c)
      | some _ => none := by
  cases u with
  | nil => exact absurd rfl h
  | cons c r =>
    cases hl : lookupA m k with
    | none => simp [setNested, hl]
    | some v' => cases v' <;> simp [setNested, hl]

theorem setNested_cons_shape {m m₂ : Assoc} {b : String} {p' : List String} {v : Val}
    (h : setNested m (b :: p') v = some m₂) : ∃ w, m₂ = insertA m b w := by
  cases p' with
  | nil =>
    simp [setNested] at h
    exact ⟨v, h.symm⟩
  | cons c r =>
    rw [setNested_cons_ne m b v (List.cons_ne_nil c r)] at h
    cases hl : lookupA m b with
    | none =>
      simp only [hl] at h
      cases hc : setNested [] (c :: r) v with
      | none => simp only [hc] at h; simp at h
      | some child =>
        simp only [hc] at h
        simp at h
        exact ⟨Val.map child, h.symm⟩
    | some w =>
      cases w with
      | map m' =>
        simp only [hl] at h
        cases hc : setNested m' (c :: r) v with
        | none => simp only [hc] at h; simp at h
        | some child =>
          simp only [hc] at h
          simp at h
          exact ⟨Val.map child, h.symm⟩
      | null => simp only [hl] at h; simp at h
      | bool b' => simp only [hl] at h; simp at h
      | int n => simp only [hl] at h; simp at h
      | float l => simp only [hl] at h; simp at h
      | str s => simp only [hl] at h; simp at h
      | list xs => simp only [hl] at h; simp at h

/-- A `setNested` along a path that diverges from `q` (different key after the
common run `r`) leaves the entry at `q` unchanged. -/
theorem entry_setNested_diverge :
    ∀ (r : List String) {m m₂ : Assoc} {v : Val} {a b : String} {q' p' : List String},
      a ≠ b → setNested m (r ++ b :: p') v = some m₂ →
      entry m₂ (r ++ a :: q') = entry m (r ++ a :: q') := by
  intro r
  induction r with
  | nil =>
    intro m m₂ v a b q' p' hab h
    simp only [List.nil_append] at h ⊢
    obtain ⟨w, rfl⟩ := setNested_cons_shape h
    exact entry_cons_congr (lookupA_insertA_ne m b a w hab) q'
  | cons k r' ih =>
    intro m m₂ v a b q' p' hab h
    have hne : r' ++ b :: p' ≠ [] := by simp
    have hne' : r' ++ a :: q' ≠ [] := by simp
    rw [List.cons_append] at h
    rw [setNested_cons_ne m k v hne] at h
    rw [List.cons_append, entry_cons_ne _ k hne', entry_cons_ne _ k hne']
    cases hl : lookupA m k with
    | none =>
      simp only [hl] at h
      cases hc : setNested [] (r' ++ b :: p') v with
      | none => simp only [hc] at h; simp at h
      | some child =>
        simp only [hc] at h
        simp at h
        subst h
        rw [lookupA_insertA_self]
        show entry child (r' ++ a :: q') = (none : Option Val)
        rw [ih hab hc]
        cases r' <;> rfl
    | some w =>
      cases w with
      | map m' =>
        simp only [hl] at h
        cases hc : setNested m' (r' ++ b :: p') v with
        | none => simp only [hc] at h; simp at h
        | some child =>
          simp only [hc] at h
          simp at h
          subst h
          rw [lookupA_insertA_self]
          show entry child (r' ++ a :: q') = entry m' (r' ++ a :: q')
          exact ih hab hc
      | null => simp only [hl] at h; simp at h
      | bool b' => simp only [hl] at h; simp at h
      | int n => simp only [hl] at h; simp at h
      | float l => simp only [hl] at h; simp at h
      | str s => simp only [hl] at h; simp at h
      | list xs => simp only [hl] at h; simp at h

/-- After setting a non-mapping value at `p`, every strict extension of `p`
is absent. -/
theorem entry_setNested_extend :
    ∀ (p : List String) {m m₂ : Assoc} {v : Val}, setNested m p v = some m₂ →
      v.isMap = false → ∀ t, t ≠ [] → entry m₂ (p ++ t) = none := by
  intro p
  induction p with
  | nil => intro m m₂ v h _ t _; simp [setNested] at h
  | cons k rest ih =>
    intro m m₂ v h hv t ht
    cases rest with
    | nil =>
      simp [setNested] at h
      subst h
      cases t with
      | nil => exact absurd rfl ht
      | cons c t' =>
        rw [List.cons_append, List.nil_append,
          entry_cons_ne _ k (List.cons_ne_nil c t'), lookupA_insertA_self]
        cases v <;> simp_all [Val.isMap]
    | cons c r =>
      have hne : (c :: r : List String) ≠ [] := List.cons_ne_nil c r
      rw [setNested_cons_ne m k v hne] at h
      have hgoal : ∀ child, setNested ([] : Assoc) (c :: r) v = some child ∨
          True → True := fun _ _ => trivial
      cases hl : lookupA m k with
      | none =>
        simp only [hl] at h
        cases hc : setNested [] (c :: r) v with
        | none => simp only [hc] at h; simp at h
        | some child =>
          simp only [hc] at h
          simp at h
          subst h
          rw [List.cons_append, entry_cons_ne _ k (by simp), lookupA_insertA_self]
          exact ih hc hv t ht
      | some w =>
        cases w with
        | map m' =>
          simp only [hl] at h
          cases hc : setNested m' (c :: r) v with
          | none => simp only [hc] at h; simp at h
          | some child =>
            simp only [hc] at h
            simp at h
            subst h
            rw [List.cons_append, entry_cons_ne _ k (by simp), lookupA_insertA_self]
            exact ih hc hv t ht
        | null => simp only [hl] at h; simp at h
        | bool b' => simp only [hl] at h; simp at h
        | int n => simp only [hl] at h; simp at h
        | float l => simp only [hl] at h; simp at h
        | str s => simp only [hl] at h; simp at h
        | list xs => simp only [hl] at h; simp at h

/-- After a successful `setNested` along `q ++ t` (`t` non-empty), the strict
prefix position `q` holds a mapping. -/
theorem entry_setNested_pre :
    ∀ (q : List String) {m m₂ : Assoc} {v : Val} {t : List String},
      setNested m (q ++ t) v = some m₂ → t ≠ [] →
      ∃ M, entry m₂ q = some (Val.map M) := by
  intro q
  induction q with
  | nil => intro m m₂ v t _ _; exact ⟨m₂, rfl⟩
  | cons k q' ih =>
    intro m m₂ v t h ht
    have hne : q' ++ t ≠ [] := by
      cases q' <;> simp [ht]
    rw [List.cons_append, setNested_cons_ne m k v hne] at h
    cases hl : lookupA m k with
    | none =>
      simp only [hl] at h
      cases hc : setNested [] (q' ++ t) v with
      | none => simp only [hc] at h; simp at h
      | some child =>
        simp only [hc] at h
        simp at h
        subst h
        cases q' with
        | nil =>
          exact ⟨child, by rw [entry_cons_nil, lookupA_insertA_self]⟩
        | cons c q'' =>
          obtain ⟨M, hM⟩ := ih hc ht
          refine ⟨M, ?_⟩
          rw [entry_cons_ne (u := c :: q'') _ k (by simp), lookupA_insertA_self]
          exact hM
    | some w =>
      cases w with
      | map m' =>
        simp only [hl] at h
        cases hc : setNested m' (q' ++ t) v with
        | none => simp only [hc] at h; simp at h
        | some child =>
          simp only [hc] at h
          simp at h
          subst h
          cases q' with
          | nil =>
            exact ⟨child, by rw [entry_cons_nil, lookupA_insertA_self]⟩
          | cons c q'' =>
            obtain ⟨M, hM⟩ := ih hc ht
            refine ⟨M, ?_⟩
            rw [entry_cons_ne (u := c :: q'') _ k (by simp), lookupA_insertA_self]
            exact hM
      | null => simp only [hl] at h; simp at h
      | bool b' => simp only [hl] at h; simp at h
      | int n => simp only [hl] at h; simp at h
      | float l => simp only [hl] at h; simp at h
      | str s => simp only [hl] at h; simp at h
      | list xs => simp only [hl] at h; simp at h

/-- A fully-present path can always be re-assigned. -/
theorem setNested_isSome_of_entry :
    ∀ (p : List String) {m : Assoc} (v : Val), p ≠ [] → (entry m p).isSome →
      ∃ m₂, setNested m p v = some m₂ := by
  intro p
  induction p with
  | nil => intro m v h _; exact absurd rfl h
  | cons k rest ih =>
    intro m v _ he
    cases rest with
    | nil => exact ⟨insertA m k v, rfl⟩
    | cons c r =>
      rw [entry_cons_ne _ k (by simp)] at he
      cases hl : lookupA m k with
      | none => simp only [hl] at he; simp at he
      | some w =>
        cases w with
        | map m' =>
          simp only [hl] at he
          obtain ⟨child, hc⟩ := ih (v := v) (by simp) he
          exact ⟨insertA m k (Val.map child),
            by simp only [setNested_cons_ne (u := c :: r) m k v (by simp), hl, hc,
              Option.map_some']⟩
        | null => simp only [hl] at he; simp at he
        | bool b' => simp only [hl] at he; simp at he
        | int n => simp only [hl] at he; simp at he
        | float l => simp only [hl] at he; simp at he
        | str s => simp only [hl] at he; simp at he
        | list xs => simp only [hl] at he; simp at he

/-- Complete failure characterization of `setNested`: the Python code raises
exactly when some strict, non-empty prefix position of the path currently
holds a non-mapping value. -/
theorem setNested_none_iff :
    ∀ (p : List String) (m : Assoc) (v : Val), p ≠ [] →
      (setNested m p v = none ↔
        ∃ q t w, p = q ++ t ∧ q ≠ [] ∧ t ≠ [] ∧ entry m q = some w ∧ w.isMap = false) := by
  intro p
  induction p with
  | nil => intro m v h; exact absurd rfl h
  | cons k rest ih =>
    intro m v _
    cases rest with
    | nil =>
      constructor
      · intro h; simp [setNested] at h
      · rintro ⟨q, t, w, hp, hq, ht, -, -⟩
        have hlen := congrArg List.length hp
        have hq1 : 0 < q.length := List.length_pos.mpr hq
        have ht1 : 0 < t.length := List.length_pos.mpr ht
        simp [List.length_append] at hlen
        omega
    | cons c r =>
      rw [setNested_cons_ne (u := c :: r) m k v (by simp)]
      cases hl : lookupA m k with
      | none =>
        simp only [hl]
        constructor
        · intro h
          rw [Option.map_eq_none'] at h
          obtain ⟨m₂, hm₂⟩ := setNested_nil_isSome (c :: r) v (by simp)
          rw [hm₂] at h
          exact absurd h (by simp)
        · rintro ⟨q, t, w, hp, hq, ht, hw, -⟩
          cases q with
          | nil => exact absurd rfl hq
          | cons a q'' =>
            rw [List.cons_append] at hp
            injection hp with h1 h2
            subst h1
            cases q'' with
            | nil => rw [entry_cons_nil, hl] at hw; exact absurd hw (by simp)
            | cons b q₃ =>
              rw [entry_cons_ne (u := b :: q₃) m k (by simp), hl] at hw
              exact absurd hw (by simp)
      | some w₀ =>
        cases w₀ with
        | map m' =>
          simp only [hl]
          rw [Option.map_eq_none']
          rw [ih m' v (by simp)]
          constructor
          · rintro ⟨q', t, w, hp, hq', ht, hw, hm⟩
            refine ⟨k :: q', t, w, by rw [List.cons_append, hp], by simp, ht, ?_, hm⟩
            cases q' with
            | nil => exact absurd rfl hq'
            | cons b q₃ =>
              rw [entry_cons_ne (u := b :: q₃) m k (by simp), hl]
              exact hw
          · rintro ⟨q, t, w, hp, hq, ht, hw, hm⟩
            cases q with
            | nil => exact absurd rfl hq
            | cons a q'' =>
              rw [List.cons_append] at hp
              injection hp with h1 h2
              subst h1
              cases q'' with
              | nil =>
                rw [entry_cons_nil, hl] at hw
                injection hw with hw'
                rw [← hw'] at hm
                simp [Val.isMap] at hm
              | cons b q₃ =>
                rw [entry_cons_ne (u := b :: q₃) m k (by simp), hl] at hw
                exact ⟨b :: q₃, t, w, h2, by simp, ht, hw, hm⟩
        | null =>
          simp only [hl]
          exact ⟨fun _ => ⟨[k], c :: r, Val.null, rfl, by simp, by simp,
            by rw [entry_cons_nil, hl], rfl⟩, fun _ => trivial⟩
        | bool b' =>
          simp only [hl]
          exact ⟨fun _ => ⟨[k], c :: r, Val.bool b', rfl, by simp, by simp,
            by rw [entry_cons_nil, hl], rfl⟩, fun _ => trivial⟩
        | int n =>
          simp only [hl]
          exact ⟨fun _ => ⟨[k], c :: r, Val.int n, rfl, by simp, by simp,
            by rw [entry_cons_nil, hl], rfl⟩, fun _ => trivial⟩
        | float l =>
          simp only [hl]
          exact ⟨fun _ => ⟨[k], c :: r, Val.float l, rfl, by simp, by simp,
            by rw [entry_cons_nil, hl], rfl⟩, fun _ => trivial⟩
        | str s =>
          simp only [hl]
          exact ⟨fun _ => ⟨[k], c :: r, Val.str s, rfl, by simp, by simp,
            by rw [entry_cons_nil, hl], rfl⟩, fun _ => trivial⟩
        | list xs =>
          simp only [hl]
          exact ⟨fun _ => ⟨[k], c :: r, Val.list xs, rfl, by simp, by simp,
            by rw [entry_cons_nil, hl], rfl⟩, fun _ => trivial⟩

/-! ## Skeleton relation and well-formedness

`SkelA b d` says the two documents have the same nested mapping structure
(same keys in the same order at every mapping level, mappings aligned with
mappings), leaving non-mapping leaf values unconstrained.  During a re-run of
the merge the document keeps the skeleton of its starting point.  `WFA`
states the key-uniqueness invariant every real Python dictionary satisfies. -/

mutual

inductive SkelV : Val → Val → Prop where
  | leaf : ∀ {a b : Val}, a.isMap = false → b.isMap = false → SkelV a b
  | map : ∀ {m m' : List (String × Val)}, SkelA m m' → SkelV (.map m) (.map m')

inductive SkelA : List (String × Val) → List (String × Val) → Prop where
  | nil : SkelA [] []
  | cons : ∀ {k : String} {v w : Val} {t t' : List (String × Val)},
      SkelV v w → SkelA t t' → SkelA ((k, v) :: t) ((k, w) :: t')

end

mutual

inductive WFV : Val → Prop where
  | leaf : ∀ {a : Val}, a.isMap = false → WFV a
  | map : ∀ {m}, WFA m → WFV (.map m)

inductive WFA : List (String × Val) → Prop where
  | nil : WFA []
  | cons : ∀ {k : String} {v : Val} {t : List (String × Val)},
      lookupA t k = none → WFV v → WFA t → WFA ((k, v) :: t)

end

mutual

theorem skelV_refl : ∀ v : Val, SkelV v v
  | .null => .leaf rfl rfl
  | .bool _ => .leaf rfl rfl
  | .int _ => .leaf rfl rfl
  | .float _ => .leaf rfl rfl
  | .str _ => .leaf rfl rfl
  | .list _ => .leaf rfl rfl
  | .map m => .map (skelA_refl m)

theorem skelA_refl : ∀ m : List (String × Val), SkelA m m
  | [] => .nil
  | (_, v) :: t => .cons (skelV_refl v) (skelA_refl t)

end

theorem skelA_keys : ∀ {b d : Assoc}, SkelA b d → b.map Prod.fst = d.map Prod.fst
  | _, _, .nil => rfl
  | _, _, .cons _ ht => by simpa using skelA_keys ht

theorem lookupA_eq_none_iff_keys : ∀ (m : Assoc) (k : String),
    lookupA m k = none ↔ k ∉ m.map Prod.fst := by
  intro m k
  induction m with
  | nil => simp [lookupA]
  | cons hd t ih =>
    rw [lookupA]
    by_cases h : hd.1 = k
    · simp [h]
    · rw [if_neg h, ih, List.map_cons]
      constructor
      · intro hk hmem
        rcases List.mem_cons.mp hmem with h1 | h2
        · exact h h1.symm
        · exact hk h2
      · intro hk hmem
        exact hk (List.mem_cons_of_mem _ hmem)

theorem skelA_lookup : ∀ {b d : Assoc}, SkelA b d → ∀ k : String,
    (lookupA b k = none ∧ lookupA d k = none) ∨
    (∃ v v', lookupA b k = some v ∧ lookupA d k = some v' ∧ SkelV v v')
  | _, _, .nil, _ => Or.inl ⟨rfl, rfl⟩
  | _, _, .cons (k := k₀) (v := v) (w := v') hv ht, k => by
    by_cases h : k₀ = k
    · exact Or.inr ⟨v, v', by simp [lookupA, h], by simp [lookupA, h], hv⟩
    · have := skelA_lookup ht k
      simpa [lookupA, h] using this

/-- Entries of skeleton-related documents are aligned: both absent, or both
present with skeleton-related values. -/
theorem skel_entry : ∀ (p : List String) {b d : Assoc}, SkelA b d →
    (entry b p = none ∧ entry d p = none) ∨
    (∃ v v', entry b p = some v ∧ entry d p = some v' ∧ SkelV v v') := by
  intro p
  induction p with
  | nil => intro b d h; exact Or.inr ⟨_, _, rfl, rfl, .map h⟩
  | cons k rest ih =>
    intro b d h
    rcases skelA_lookup h k with ⟨hb, hd⟩ | ⟨v, v', hb, hd, hvv⟩
    · cases rest with
      | nil => exact Or.inl ⟨by rw [entry_cons_nil, hb], by rw [entry_cons_nil, hd]⟩
      | cons c r =>
        exact Or.inl ⟨by rw [entry_cons_ne (u := c :: r) _ _ (by simp), hb],
          by rw [entry_cons_ne (u := c :: r) _ _ (by simp), hd]⟩
    · cases rest with
      | nil =>
        exact Or.inr ⟨v, v', by rw [entry_cons_nil, hb], by rw [entry_cons_nil, hd], hvv⟩
      | cons c r =>
        cases hvv with
        | leaf ha hb' =>
          refine Or.inl ⟨?_, ?_⟩
          · rw [entry_cons_ne (u := c :: r) _ _ (by simp), hb]
            cases v <;> simp_all [Val.isMap]
          · rw [entry_cons_ne (u := c :: r) _ _ (by simp), hd]
            cases v' <;> simp_all [Val.isMap]
        | map hm =>
          have hrec := ih hm
          rcases hrec with ⟨h1, h2⟩ | ⟨w, w', h1, h2, hww⟩
          · refine Or.inl ⟨?_, ?_⟩
            · rw [entry_cons_ne (u := c :: r) _ _ (by simp), hb]; exact h1
            · rw [entry_cons_ne (u := c :: r) _ _ (by simp), hd]; exact h2
          · refine Or.inr ⟨w, w', ?_, ?_, hww⟩
            · rw [entry_cons_ne (u := c :: r) _ _ (by simp), hb]; exact h1
            · rw [entry_cons_ne (u := c :: r) _ _ (by simp), hd]; exact h2

/-- Replacing the value at a present key by a value that is skeleton-compatible
with the partner document keeps the skeleton relation. -/
theorem skelA_insertA : ∀ {b d : Assoc} {k : String} {u vNew : Val}, SkelA b d →
    lookupA b k = some u → (∀ u', SkelV u u' → SkelV vNew u') →
    SkelA (insertA b k vNew) d
  | _, _, k, u, vNew, .nil, hl, _ => by simp [lookupA] at hl
  | _, _, k, u, vNew, .cons (k := k₀) (v := v) (w := v') hv ht, hl, himp => by
    by_cases h : k₀ = k
    · subst h
      simp only [lookupA, if_pos rfl] at hl
      injection hl with hl
      subst hl
      simpa [insertA] using SkelA.cons (himp v' hv) ht
    · simp only [lookupA, if_neg h] at hl
      simpa [insertA, h] using SkelA.cons hv (skelA_insertA ht hl himp)

/-- A successful in-place `setNested` at a fully-present, non-mapping position
(with a non-mapping new value) preserves the skeleton relation. -/
theorem skelA_setNested : ∀ (p : List String) {b d b₂ : Assoc} {v w : Val},
    SkelA b d → setNested b p v = some b₂ → entry b p = some w →
    w.isMap = false → v.isMap = false → SkelA b₂ d := by
  intro p
  induction p with
  | nil => intro b d b₂ v w _ hs _ _ _; simp [setNested] at hs
  | cons k rest ih =>
    intro b d b₂ v w hsk hs he hw hv
    cases rest with
    | nil =>
      simp only [setNested] at hs
      injection hs with hs
      subst hs
      rw [entry_cons_nil] at he
      refine skelA_insertA hsk he fun u' hu' => ?_
      cases hu' with
      | leaf _ hb => exact .leaf hv hb
      | map _ => rw [Val.isMap] at hw; exact absurd hw (by simp)
    | cons c r =>
      rw [entry_cons_ne (u := c :: r) _ _ (by simp)] at he
      rw [setNested_cons_ne (u := c :: r) _ _ _ (by simp)] at hs
      cases hl : lookupA b k with
      | none => rw [hl] at he; simp at he
      | some u =>
        cases u with
        | map mb =>
          simp only [hl] at he hs
          cases hc : setNested mb (c :: r) v with
          | none => simp only [hc] at hs; simp at hs
          | some child =>
            simp only [hc] at hs
            simp at hs
            subst hs
            refine skelA_insertA hsk hl fun u' hu' => ?_
            cases hu' with
            | leaf ha _ => simp [Val.isMap] at ha
            | map hm => exact .map (ih hm hc he hw hv)
        | null => simp only [hl] at he; simp at he
        | bool b' => simp only [hl] at he; simp at he
        | int n => simp only [hl] at he; simp at he
        | float l => simp only [hl] at he; simp at he
        | str s => simp only [hl] at he; simp at he
        | list xs => simp only [hl] at he; simp at he

theorem lookupA_cons_ne {k₀ : String} {u : Val} {t : Assoc} {j : String} (h : k₀ ≠ j) :
    lookupA ((k₀, u) :: t) j = lookupA t j := by
  simp [lookupA, h]

theorem entry_cons_head {m : Assoc} {k : String} {mm : Assoc}
    (hl : lookupA m k = some (Val.map mm)) (p : List String) :
    entry m (k :: p) = entry mm p := by
  cases p with
  | nil => rw [entry_cons_nil, hl]; rfl
  | cons c r => rw [entry_cons_ne (u := c :: r) _ _ (by simp), hl]

theorem entry_cons_lookup_none {m : Assoc} {k : String} (hl : lookupA m k = none)
    (r : List String) : entry m (k :: r) = none := by
  cases r with
  | nil => rw [entry_cons_nil, hl]
  | cons c r' => rw [entry_cons_ne (u := c :: r') _ _ (by simp), hl]

/-- Path lookups compose: walking `q ++ t` is walking `q` to a mapping, then
walking `t` inside it. -/
theorem entry_append : ∀ (q : List String) {t : List String} (m : Assoc), t ≠ [] →
    entry m (q ++ t) =
      match entry m q with
      | some (Val.map mm) => entry mm t
      | _ => none := by
  intro q
  induction q with
  | nil => intro t m _; rfl
  | cons k q' ih =>
    intro t m ht
    rw [List.cons_append]
    cases hl : lookupA m k with
    | none =>
      rw [entry_cons_lookup_none hl, entry_cons_lookup_none hl]
    | some v =>
      cases v with
      | map mm =>
        rw [entry_cons_head hl, entry_cons_head hl, ih mm ht]
      | null =>
        have h1 : q' ++ t ≠ [] := by cases q' <;> simp [ht]
        rw [entry_cons_ne (u := q' ++ t) _ _ h1]
        cases q' with
        | nil => rw [entry_cons_nil, hl]
        | cons c q'' =>
          rw [entry_cons_ne (u := c :: q'') _ _ (by simp), hl]
      | bool b =>
        have h1 : q' ++ t ≠ [] := by cases q' <;> simp [ht]
        rw [entry_cons_ne (u := q' ++ t) _ _ h1]
        cases q' with
        | nil => rw [entry_cons_nil, hl]
        | cons c q'' =>
          rw [entry_cons_ne (u := c :: q'') _ _ (by simp), hl]
      | int n =>
        have h1 : q' ++ t ≠ [] := by cases q' <;> simp [ht]
        rw [entry_cons_ne (u := q' ++ t) _ _ h1]
        cases q' with
        | nil => rw [entry_cons_nil, hl]
        | cons c q'' =>
          rw [entry_cons_ne (u := c :: q'') _ _ (by simp), hl]
      | float l =>
        have h1 : q' ++ t ≠ [] := by cases q' <;> simp [ht]
        rw [entry_cons_ne (u := q' ++ t) _ _ h1]
        cases q' with
        | nil => rw [entry_cons_nil, hl]
        | cons c q'' =>
          rw [entry_cons_ne (u := c :: q'') _ _ (by simp), hl]
      | str s =>
        have h1 : q' ++ t ≠ [] := by cases q' <;> simp [ht]
        rw [entry_cons_ne (u := q' ++ t) _ _ h1]
        cases q' with
        | nil => rw [entry_cons_nil, hl]
        | cons c q'' =>
          rw [entry_cons_ne (u := c :: q'') _ _ (by simp), hl]
      | list xs =>
        have h1 : q' ++ t ≠ [] := by cases q' <;> simp [ht]
        rw [entry_cons_ne (u := q' ++ t) _ _ h1]
        cases q' with
        | nil => rw [entry_cons_nil, hl]
        | cons c q'' =>
          rw [entry_cons_ne (u := c :: q'') _ _ (by simp), hl]

theorem entry_eq_some_getNested {m : Assoc} {p : List String}
    (h : (getNested m p).isNull = false) : entry m p = some (getNested m p) := by
  rw [getNested_eq_entry] at h ⊢
  cases he : entry m p with
  | none => rw [he] at h; simp [Val.isNull] at h
  | some v => simp

/-- Any two key paths are equal, one extends the other, or they diverge at a
first differing key. -/
theorem pathTrichotomy : ∀ (p q : List String),
    p = q ∨ (∃ t, t ≠ [] ∧ q = p ++ t) ∨ (∃ t, t ≠ [] ∧ p = q ++ t) ∨
    (∃ r a b p' q', a ≠ b ∧ p = r ++ a :: p' ∧ q = r ++ b :: q') := by
  intro p
  induction p with
  | nil =>
    intro q
    cases q with
    | nil => exact Or.inl rfl
    | cons c q' => exact Or.inr (Or.inl ⟨c :: q', by simp, rfl⟩)
  | cons a p' ih =>
    intro q
    cases q with
    | nil => exact Or.inr (Or.inr (Or.inl ⟨a :: p', by simp, rfl⟩))
    | cons b q'' =>
      by_cases hab : a = b
      · subst hab
        rcases ih q'' with heq | ⟨t, ht, hext⟩ | ⟨t, ht, hext⟩ | ⟨r, x, y, px, qx, hxy, hp, hq⟩
        · exact Or.inl (by rw [heq])
        · exact Or.inr (Or.inl ⟨t, ht, by rw [hext]; rfl⟩)
        · exact Or.inr (Or.inr (Or.inl ⟨t, ht, by rw [hext]; rfl⟩))
        · exact Or.inr (Or.inr (Or.inr ⟨a :: r, x, y, px, qx, hxy,
            by rw [hp]; rfl, by rw [hq]; rfl⟩))
      · exact Or.inr (Or.inr (Or.inr ⟨[], a, b, p', q'', hab, rfl, rfl⟩))

/-! ## Well-formedness is preserved by the document operations -/

theorem wfA_lookup : ∀ {m : Assoc} {k : String} {v : Val}, WFA m →
    lookupA m k = some v → WFV v
  | _, k, v, .nil, hl => by simp [lookupA] at hl
  | _, k, v, .cons (k := k₀) hlk hv ht, hl => by
    by_cases h : k₀ = k
    · simp only [lookupA, if_pos h] at hl
      injection hl with hl
      subst hl
      exact hv
    · simp only [lookupA, if_neg h] at hl
      exact wfA_lookup ht hl

theorem wfA_insertA : ∀ {m : Assoc} {k : String} {v : Val}, WFA m → WFV v →
    WFA (insertA m k v)
  | _, k, v, .nil, hv => .cons rfl hv .nil
  | _, k, v, .cons (k := k₀) (v := u) (t := t) hlk hu ht, hv => by
    by_cases h : k₀ = k
    · subst h
      simpa [insertA] using WFA.cons hlk hv ht
    · simp only [insertA, if_neg h]
      exact .cons (by rw [lookupA_insertA_ne t k k₀ v h]; exact hlk) hu (wfA_insertA ht hv)

theorem wfA_setNested : ∀ (p : List String) {m m₂ : Assoc} {v : Val}, WFA m → WFV v →
    setNested m p v = some m₂ → WFA m₂ := by
  intro p
  induction p with
  | nil => intro m m₂ v _ _ hs; simp [setNested] at hs
  | cons k rest ih =>
    intro m m₂ v hw hv hs
    cases rest with
    | nil =>
      simp only [setNested] at hs
      injection hs with hs
      subst hs
      exact wfA_insertA hw hv
    | cons c r =>
      rw [setNested_cons_ne (u := c :: r) _ _ _ (by simp)] at hs
      cases hl : lookupA m k with
      | none =>
        simp only [hl] at hs
        cases hc : setNested [] (c :: r) v with
        | none => simp only [hc] at hs; simp at hs
        | some child =>
          simp only [hc] at hs
          simp at hs
          subst hs
          exact wfA_insertA hw (.map (ih .nil hv hc))
      | some u =>
        cases u with
        | map m' =>
          simp only [hl] at hs
          cases hc : setNested m' (c :: r) v with
          | none => simp only [hc] at hs; simp at hs
          | some child =>
            simp only [hc] at hs
            simp at hs
            subst hs
            have hm' : WFA m' := by
              have := wfA_lookup hw hl
              cases this with
              | leaf ha => simp [Val.isMap] at ha
              | map hma => exact hma
            exact wfA_insertA hw (.map (ih hm' hv hc))
        | null => simp only [hl] at hs; simp at hs
        | bool b' => simp only [hl] at hs; simp at hs
        | int n => simp only [hl] at hs; simp at hs
        | float l => simp only [hl] at hs; simp at hs
        | str s => simp only [hl] at hs; simp at hs
        | list xs => simp only [hl] at hs; simp at hs

theorem skel_entry_eq_aux : ∀ (n : Nat) (d b : Assoc), sizeOf d ≤ n → WFA d → SkelA b d →
    (∀ p, (∀ M, entry d p ≠ some (Val.map M)) → entry b p = entry d p) → b = d := by
  intro n
  induction n with
  | zero =>
    intro d b hsize _ _ _
    cases d with
    | nil =>
      cases b with
      | nil => rfl
      | cons hd t => rename_i hsk _; cases hsk
    | cons hd t => simp at hsize
  | succ n ih =>
    intro d b hsize hw hsk hp
    cases hsk with
    | nil => rfl
    | cons hv ht =>
      rename_i k v v' t t'
      simp only [List.cons.sizeOf_spec, Prod.mk.sizeOf_spec] at hsize
      cases hw with
      | cons hlk hv' hw' =>
        have hval : v = v' := by
          cases hv with
          | leaf ha hb =>
            have hcond : ∀ M, entry ((k, v') :: t') [k] ≠ some (Val.map M) := by
              intro M hM
              rw [entry_cons_nil] at hM
              simp only [lookupA, if_pos rfl] at hM
              injection hM with hM
              rw [hM] at hb
              simp [Val.isMap] at hb
            have hq := hp [k] hcond
            rw [entry_cons_nil, entry_cons_nil] at hq
            simp only [lookupA, if_pos rfl] at hq
            exact Option.some.inj hq
          | map hm =>
            rename_i mb md
            have hwmd : WFA md := by
              cases hv' with
              | leaf ha => simp [Val.isMap] at ha
              | map hh => exact hh
            have hbhead : lookupA ((k, Val.map mb) :: t) k = some (Val.map mb) := by
              simp [lookupA]
            have hdhead : lookupA ((k, Val.map md) :: t') k = some (Val.map md) := by
              simp [lookupA]
            have hmdsize : sizeOf md ≤ n := by
              simp only [Val.map.sizeOf_spec] at hsize
              omega
            have heq : mb = md := by
              apply ih md mb hmdsize hwmd hm
              intro p' hcond
              have hc2 : ∀ M, entry ((k, Val.map md) :: t') (k :: p') ≠ some (Val.map M) := by
                intro M hM
                rw [entry_cons_head hdhead] at hM
                exact hcond M hM
              have hq := hp (k :: p') hc2
              rw [entry_cons_head hbhead, entry_cons_head hdhead] at hq
              exact hq
            rw [heq]
        have htail : t = t' := by
          apply ih t' t (by omega) hw' ht
          intro p hcond
          cases p with
          | nil => exact absurd (entry_root t') (hcond t')
          | cons j r =>
            by_cases hjk : j = k
            · subst hjk
              have h1 : entry t' (j :: r) = none := entry_cons_lookup_none hlk r
              have h2 : lookupA t j = none := by
                rw [lookupA_eq_none_iff_keys] at hlk ⊢
                rw [skelA_keys ht]
                exact hlk
              rw [h1, entry_cons_lookup_none h2 r]
            · have e1 : entry ((k, v) :: t) (j :: r) = entry t (j :: r) :=
                entry_cons_congr (lookupA_cons_ne fun hh => hjk hh.symm) r
              have e2 : entry ((k, v') :: t') (j :: r) = entry t' (j :: r) :=
                entry_cons_congr (lookupA_cons_ne fun hh => hjk hh.symm) r
              have hc2 : ∀ M, entry ((k, v') :: t') (j :: r) ≠ some (Val.map M) := by
                intro M hM
                rw [e2] at hM
                exact hcond M hM
              have hq := hp (j :: r) hc2
              rw [e1, e2] at hq
              exact hq
        rw [hval, htail]

/-- Two documents with the same skeleton, equal entries at every non-mapping
position, and unique keys (on the reference side) are equal. -/
theorem skel_entry_eq (d b : Assoc) (hw : WFA d) (hsk : SkelA b d)
    (hp : ∀ p, (∀ M, entry d p ≠ some (Val.map M)) → entry b p = entry d p) : b = d :=
  skel_entry_eq_aux (sizeOf d) d b le_rfl hw hsk hp

/-! ## Per-path replay dynamics

Viewed from a single dotted path, one merge iteration either leaves the value
(existing list vs. non-list override) or installs the override value; `T0` is
that transition on `Option Val` (`none` = path absent / null, which always
accepts).  `foldT0` replays a path's override values, and `foldT0_idem` is the
single-path idempotence that drives the global idempotence proof. -/

def T0 (e : Option Val) (v : Val) : Option Val :=
  match e with
  | some w => if w.isList && !v.isList then e else some v
  | none => some v

def foldT0 (e : Option Val) (vs : List Val) : Option Val := vs.foldl T0 e

def isListO : Option Val → Bool
  | some w => w.isList
  | none => false

theorem foldT0_isList : ∀ (vs : List Val) (e : Option Val),
    isListO e = true → isListO (foldT0 e vs) = true := by
  intro vs
  induction vs with
  | nil => intro e h; exact h
  | cons v t ih =>
    intro e h
    show isListO (foldT0 (T0 e v) t) = true
    apply ih
    cases e with
    | none => simp [isListO] at h
    | some w =>
      simp only [isListO] at h
      cases hv : v.isList <;> simp [T0, isListO, h, hv]

/-- Replaying a path's override values a second time, starting from the first
replay's result, reproduces that result. -/
theorem foldT0_idem : ∀ (vs : List Val) (e : Option Val),
    foldT0 (foldT0 e vs) vs = foldT0 e vs := by
  intro vs
  induction vs with
  | nil => intro e; rfl
  | cons v t ih =>
    intro e
    show foldT0 (T0 (foldT0 (T0 e v) t) v) t = foldT0 (T0 e v) t
    cases hv : v.isList with
    | true =>
      have h1 : ∀ e', T0 e' v = some v := by
        intro e'
        cases e' with
        | none => rfl
        | some w => simp [T0, hv]
      simp only [h1]
    | false =>
      cases hw : isListO (foldT0 (T0 e v) t) with
      | true =>
        have h2 : T0 (foldT0 (T0 e v) t) v = foldT0 (T0 e v) t := by
          cases hfold : foldT0 (T0 e v) t with
          | none => rw [hfold] at hw; simp [isListO] at hw
          | some w =>
            rw [hfold] at hw
            simp only [isListO] at hw
            simp [T0, hw, hv]
        rw [h2]
        exact ih (T0 e v)
      | false =>
        have h2 : T0 (foldT0 (T0 e v) t) v = some v := by
          cases hfold : foldT0 (T0 e v) t with
          | none => rfl
          | some w =>
            rw [hfold] at hw
            simp only [isListO] at hw
            simp [T0, hw]
        rw [h2]
        cases he : isListO e with
        | false =>
          have h3 : T0 e v = some v := by
            cases e with
            | none => rfl
            | some w => simp only [isListO] at he; simp [T0, he]
          rw [h3]
        | true =>
          have h3 : T0 e v = e := by
            cases e with
            | none => simp [isListO] at he
            | some w => simp only [isListO] at he; simp [T0, he, hv]
          rw [h3] at hw
          simp [foldT0_isList t e he] at hw

/-- The override values of the list `ovs` whose dotted key denotes path `p`,
in processing order. -/
def ovVals (p : List String) : List (String × Val) → List Val
  | [] => []
  | (k, v) :: rest => if pathKeys k = p then v :: ovVals p rest else ovVals p rest

/-- The conflict-policy test of one `main` loop iteration. -/
def rejects (cfg : Assoc) (key : String) (v : Val) : Bool :=
  !(getNested cfg (pathKeys key)).isNull &&
    (((getNested cfg (pathKeys key)).isList && !v.isList) ||
     ((getNested cfg (pathKeys key)).isMap && !v.isMap))

theorem applyOverride_eq (cfg : Assoc) (key : String) (v : Val) :
    applyOverride cfg key v =
      if rejects cfg key v then some (cfg, false)
      else (setNested cfg (pathKeys key) v).map fun c => (c, true) := by
  simp only [applyOverride, rejects]
  by_cases h1 : (getNested cfg (pathKeys key)).isNull = true <;>
    by_cases h2 : (getNested cfg (pathKeys key)).isList = true <;>
      by_cases h3 : (getNested cfg (pathKeys key)).isMap = true <;>
        by_cases h4 : v.isList = true <;> by_cases h5 : v.isMap = true <;>
          simp_all

theorem splitCh_ne_nil : ∀ (c : Char) (l : List Char), splitCh c l ≠ [] := by
  intro c l
  induction l with
  | nil => simp [splitCh]
  | cons a r ih =>
    rw [splitCh]
    by_cases h : a = c
    · simp [h]
    · rw [if_neg h]
      cases hs : splitCh c r with
      | nil => exact absurd hs ih
      | cons x xs => simp

theorem pathKeys_ne_nil (k : String) : pathKeys k ≠ [] := by
  unfold pathKeys
  intro h
  rw [List.map_eq_nil_iff] at h
  exact splitCh_ne_nil '.' k.data h

theorem applyOverride_accept {cfg cfg₂ : Assoc} {key : String} {v : Val} {acc : Bool}
    (h : applyOverride cfg key v = some (cfg₂, acc)) :
    (rejects cfg key v = true ∧ cfg = cfg₂ ∧ acc = false) ∨
    (rejects cfg key v = false ∧ acc = true ∧ setNested cfg (pathKeys key) v = some cfg₂) := by
  rw [applyOverride_eq] at h
  cases hr : rejects cfg key v with
  | true =>
    rw [hr, if_pos rfl] at h
    injection h with h'
    injection h' with ha hb
    exact Or.inl ⟨rfl, ha, hb.symm⟩
  | false =>
    rw [hr, if_neg Bool.false_ne_true] at h
    cases hs : setNested cfg (pathKeys key) v with
    | none => rw [hs] at h; simp at h
    | some c =>
      rw [hs, Option.map_some'] at h
      injection h with h'
      injection h' with ha hb
      exact Or.inr ⟨rfl, hb.symm, congrArg some ha⟩

/-- Viewed at a single path, one accepted-or-skipped merge iteration is the
`T0` transition at its own path and the identity elsewhere (at every path
that does not end up holding a mapping). -/
theorem step_entry {cfg cfg₂ : Assoc} {key : String} {v : Val} {acc : Bool}
    (h : applyOverride cfg key v = some (cfg₂, acc)) (hv : v.isMap = false)
    (p : List String) (hnm : ∀ M, entry cfg₂ p ≠ some (Val.map M)) :
    entry cfg₂ p = if pathKeys key = p then T0 (entry cfg p) v else entry cfg p := by
  rcases applyOverride_accept h with ⟨hr, hcc, -⟩ | ⟨hr, -, hs⟩
  · subst hcc
    by_cases hpq : pathKeys key = p
    · rw [if_pos hpq]
      subst hpq
      have hnull : (getNested cfg (pathKeys key)).isNull = false := by
        unfold rejects at hr
        simp only [Bool.and_eq_true, Bool.not_eq_true'] at hr
        exact hr.1
      have hent := entry_eq_some_getNested hnull
      cases hg : getNested cfg (pathKeys key) with
      | map M =>
        rw [hg] at hent
        exact absurd hent (hnm M)
      | list xs =>
        rw [hg] at hent
        rw [hent]
        have hvl : v.isList = false := by
          unfold rejects at hr
          rw [hg] at hr
          simpa using hr
        simp [T0, hvl]
      | null => rw [hg] at hnull; simp [Val.isNull] at hnull
      | bool b =>
        exfalso
        unfold rejects at hr
        rw [hg] at hr
        simp at hr
      | int n =>
        exfalso
        unfold rejects at hr
        rw [hg] at hr
        simp at hr
      | float l =>
        exfalso
        unfold rejects at hr
        rw [hg] at hr
        simp at hr
      | str s =>
        exfalso
        unfold rejects at hr
        rw [hg] at hr
        simp at hr
    · rw [if_neg hpq]
  · by_cases hpq : pathKeys key = p
    · rw [if_pos hpq]
      subst hpq
      rw [entry_setNested_self hs]
      cases he : entry cfg (pathKeys key) with
      | none => rfl
      | some w =>
        cases w with
        | list xs =>
          have hget : getNested cfg (pathKeys key) = Val.list xs := by
            rw [getNested_eq_entry, he]; rfl
          have hvl : v.isList = true := by
            unfold rejects at hr
            rw [hget] at hr
            simpa using hr
          simp [T0, hvl]
        | map M =>
          exfalso
          have hget : getNested cfg (pathKeys key) = Val.map M := by
            rw [getNested_eq_entry, he]; rfl
          unfold rejects at hr
          rw [hget] at hr
          simp [hv] at hr
        | null => simp [T0]
        | bool b => simp [T0]
        | int n => simp [T0]
        | float l => simp [T0]
        | str s => simp [T0]
    · rw [if_neg hpq]
      rcases pathTrichotomy (pathKeys key) p with heq | ⟨t, ht, hext⟩ | ⟨t, ht, hext⟩ |
        ⟨r, a, b, p', q', hab, hP, hQ⟩
      · exact absurd heq hpq
      · subst hext
        rw [entry_setNested_extend (pathKeys key) hs hv t ht]
        rw [entry_append (pathKeys key) cfg ht]
        cases he : entry cfg (pathKeys key) with
        | none => rfl
        | some w =>
          cases w with
          | map M =>
            exfalso
            have hget : getNested cfg (pathKeys key) = Val.map M := by
              rw [getNested_eq_entry, he]; rfl
            unfold rejects at hr
            rw [hget] at hr
            simp [hv] at hr
          | null => rfl
          | bool b => rfl
          | int n => rfl
          | float l => rfl
          | str s => rfl
          | list xs => rfl
      · rw [hext] at hs
        obtain ⟨M, hM⟩ := entry_setNested_pre p hs ht
        exact absurd hM (hnm M)
      · rw [hQ]
        rw [hP] at hs
        exact entry_setNested_diverge r hab.symm hs

/-- Mappings persist through one successful merge iteration. -/
theorem step_mapAt {cfg cfg₂ : Assoc} {key : String} {v : Val} {acc : Bool}
    (h : applyOverride cfg key v = some (cfg₂, acc)) (hv : v.isMap = false)
    {p : List String} {M : Assoc} (hm : entry cfg p = some (Val.map M)) :
    ∃ M', entry cfg₂ p = some (Val.map M') := by
  rcases applyOverride_accept h with ⟨-, hcc, -⟩ | ⟨hr, -, hs⟩
  · subst hcc
    exact ⟨M, hm⟩
  · rcases pathTrichotomy (pathKeys key) p with heq | ⟨t, ht, hext⟩ | ⟨t, ht, hext⟩ |
      ⟨r, a, b, p', q', hab, hP, hQ⟩
    · exfalso
      subst heq
      have hget : getNested cfg (pathKeys key) = Val.map M := by
        rw [getNested_eq_entry, hm]; rfl
      unfold rejects at hr
      rw [hget] at hr
      simp [hv] at hr
    · exfalso
      subst hext
      rw [entry_append (pathKeys key) cfg ht] at hm
      cases he : entry cfg (pathKeys key) with
      | none => rw [he] at hm; simp at hm
      | some w =>
        cases w with
        | map mm =>
          have hget : getNested cfg (pathKeys key) = Val.map mm := by
            rw [getNested_eq_entry, he]; rfl
          unfold rejects at hr
          rw [hget] at hr
          simp [hv] at hr
        | null => rw [he] at hm; simp at hm
        | bool b => rw [he] at hm; simp at hm
        | int n => rw [he] at hm; simp at hm
        | float l => rw [he] at hm; simp at hm
        | str s => rw [he] at hm; simp at hm
        | list xs => rw [he] at hm; simp at hm
    · rw [hext] at hs
      exact entry_setNested_pre p hs ht
    · rw [hQ] at hm ⊢
      rw [hP] at hs
      rw [entry_setNested_diverge r hab.symm hs]
      exact ⟨M, hm⟩

/-- Present paths stay present through one successful merge iteration. -/
theorem step_present {cfg cfg₂ : Assoc} {key : String} {v : Val} {acc : Bool}
    (h : applyOverride cfg key v = some (cfg₂, acc)) (hv : v.isMap = false)
    (q : List String) (hq : (entry cfg q).isSome) : (entry cfg₂ q).isSome := by
  rcases applyOverride_accept h with ⟨-, hcc, -⟩ | ⟨hr, -, hs⟩
  · subst hcc
    exact hq
  · rcases pathTrichotomy (pathKeys key) q with heq | ⟨t, ht, hext⟩ | ⟨t, ht, hext⟩ |
      ⟨r, a, b, p', q', hab, hP, hQ⟩
    · subst heq
      rw [entry_setNested_self hs]
      simp
    · exfalso
      subst hext
      rw [entry_append (pathKeys key) cfg ht] at hq
      cases he : entry cfg (pathKeys key) with
      | none => rw [he] at hq; simp at hq
      | some w =>
        cases w with
        | map mm =>
          have hget : getNested cfg (pathKeys key) = Val.map mm := by
            rw [getNested_eq_entry, he]; rfl
          unfold rejects at hr
          rw [hget] at hr
          simp [hv] at hr
        | null => rw [he] at hq; simp at hq
        | bool b => rw [he] at hq; simp at hq
        | int n => rw [he] at hq; simp at hq
        | float l => rw [he] at hq; simp at hq
        | str s => rw [he] at hq; simp at hq
        | list xs => rw [he] at hq; simp at hq
    · rw [hext] at hs
      obtain ⟨M, hM⟩ := entry_setNested_pre q hs ht
      rw [hM]
      simp
    · rw [hQ] at hq ⊢
      rw [hP] at hs
      rw [entry_setNested_diverge r hab.symm hs]
      exact hq

/-- After processing an override its own path is present. -/
theorem step_establishes {cfg cfg₂ : Assoc} {key : String} {v : Val} {acc : Bool}
    (h : applyOverride cfg key v = some (cfg₂, acc)) :
    (entry cfg₂ (pathKeys key)).isSome := by
  rcases applyOverride_accept h with ⟨hr, hcc, -⟩ | ⟨-, -, hs⟩
  · subst hcc
    have hnull : (getNested cfg (pathKeys key)).isNull = false := by
      unfold rejects at hr
      simp only [Bool.and_eq_true, Bool.not_eq_true'] at hr
      exact hr.1
    rw [entry_eq_some_getNested hnull]
    simp
  · rw [entry_setNested_self hs]
    simp

theorem applyAll_cons_elim {a A : Assoc} {k : String} {v : Val}
    {rest : List (String × Val)} {rep : List String}
    (h : applyAll a ((k, v) :: rest) = some (A, rep)) :
    ∃ a₁ acc rep', applyOverride a k v = some (a₁, acc) ∧
      applyAll a₁ rest = some (A, rep') ∧ rep = if acc then k :: rep' else rep' := by
  rw [applyAll] at h
  cases ho : applyOverride a k v with
  | none => rw [ho] at h; simp at h
  | some pr =>
    obtain ⟨a₁, acc⟩ := pr
    simp only [ho] at h
    cases hre : applyAll a₁ rest with
    | none => rw [hre] at h; simp at h
    | some pr2 =>
      obtain ⟨A', rep'⟩ := pr2
      rw [hre, Option.map_some'] at h
      injection h with h'
      injection h' with ha hb
      exact ⟨a₁, acc, rep', rfl, by rw [hre, show A' = A from ha], hb.symm⟩

theorem applyAll_cons_intro {a a₁ A : Assoc} {k : String} {v : Val} {acc : Bool}
    {rest : List (String × Val)} {rep : List String}
    (ho : applyOverride a k v = some (a₁, acc)) (hr : applyAll a₁ rest = some (A, rep)) :
    applyAll a ((k, v) :: rest) = some (A, if acc then k :: rep else rep) := by
  rw [applyAll]
  simp only [ho, hr, Option.map_some']

/-- Mappings persist through a successful run. -/
theorem applyAll_mapAt : ∀ (ovs : List (String × Val)) {a A : Assoc} {rep : List String},
    applyAll a ovs = some (A, rep) → (∀ kv ∈ ovs, kv.2.isMap = false) →
    ∀ {p : List String} {M : Assoc}, entry a p = some (Val.map M) →
    ∃ M', entry A p = some (Val.map M') := by
  intro ovs
  induction ovs with
  | nil =>
    intro a A rep h _ p M hm
    rw [applyAll] at h
    injection h with h'
    injection h' with ha _
    exact ⟨M, by rw [← ha]; exact hm⟩
  | cons kv rest ih =>
    obtain ⟨k, v⟩ := kv
    intro a A rep h hnm p M hm
    obtain ⟨a₁, acc, rep', ho, hrest, -⟩ := applyAll_cons_elim h
    obtain ⟨M₁, hM₁⟩ := step_mapAt ho (hnm (k, v) (by simp)) hm
    exact ih hrest (fun kv hkv => hnm kv (by simp [hkv])) hM₁

/-- Present paths persist through a successful run. -/
theorem applyAll_present_persist : ∀ (ovs : List (String × Val)) {a A : Assoc}
    {rep : List String}, applyAll a ovs = some (A, rep) →
    (∀ kv ∈ ovs, kv.2.isMap = false) →
    ∀ q, (entry a q).isSome → (entry A q).isSome := by
  intro ovs
  induction ovs with
  | nil =>
    intro a A rep h _ q hq
    rw [applyAll] at h
    injection h with h'
    injection h' with ha _
    rw [← ha]
    exact hq
  | cons kv rest ih =>
    obtain ⟨k, v⟩ := kv
    intro a A rep h hnm q hq
    obtain ⟨a₁, acc, rep', ho, hrest, -⟩ := applyAll_cons_elim h
    exact ih hrest (fun kv hkv => hnm kv (by simp [hkv])) q
      (step_present ho (hnm (k, v) (by simp)) q hq)

/-- Every processed override path is present in the final document. -/
theorem applyAll_present : ∀ (ovs : List (String × Val)) {a A : Assoc} {rep : List String},
    applyAll a ovs = some (A, rep) → (∀ kv ∈ ovs, kv.2.isMap = false) →
    ∀ kv ∈ ovs, (entry A (pathKeys kv.1)).isSome := by
  intro ovs
  induction ovs with
  | nil => intro a A rep _ _ kv hkv; simp at hkv
  | cons kv₀ rest ih =>
    obtain ⟨k, v⟩ := kv₀
    intro a A rep h hnm kv hkv
    obtain ⟨a₁, acc, rep', ho, hrest, -⟩ := applyAll_cons_elim h
    rcases List.mem_cons.mp hkv with rfl | hmem
    · exact applyAll_present_persist rest hrest (fun kv hkv => hnm kv (by simp [hkv]))
        (pathKeys k) (step_establishes ho)
    · exact ih hrest (fun kv hkv => hnm kv (by simp [hkv])) kv hmem

/-- Well-formedness (key uniqueness) is preserved by a successful run. -/
theorem applyAll_wf : ∀ (ovs : List (String × Val)) {a A : Assoc} {rep : List String},
    applyAll a ovs = some (A, rep) → (∀ kv ∈ ovs, kv.2.isMap = false) →
    WFA a → WFA A := by
  intro ovs
  induction ovs with
  | nil =>
    intro a A rep h _ hw
    rw [applyAll] at h
    injection h with h'
    injection h' with ha _
    rw [← ha]
    exact hw
  | cons kv rest ih =>
    obtain ⟨k, v⟩ := kv
    intro a A rep h hnm hw
    obtain ⟨a₁, acc, rep', ho, hrest, -⟩ := applyAll_cons_elim h
    have hw₁ : WFA a₁ := by
      rcases applyOverride_accept ho with ⟨-, hcc, -⟩ | ⟨-, -, hs⟩
      · rw [← hcc]; exact hw
      · exact wfA_setNested (pathKeys k) hw (.leaf (hnm (k, v) (by simp))) hs
    exact ih hrest (fun kv hkv => hnm kv (by simp [hkv])) hw₁

/-- Pointwise characterization of a successful run: at every path that does
not end up holding a mapping, the final value is the `T0`-replay of that
path's override values from the starting value. -/
theorem applyAll_entry : ∀ (ovs : List (String × Val)) {a A : Assoc} {rep : List String},
    applyAll a ovs = some (A, rep) → (∀ kv ∈ ovs, kv.2.isMap = false) →
    ∀ p, (∀ M, entry A p ≠ some (Val.map M)) →
    entry A p = foldT0 (entry a p) (ovVals p ovs) := by
  intro ovs
  induction ovs with
  | nil =>
    intro a A rep h _ p _
    rw [applyAll] at h
    injection h with h'
    injection h' with ha _
    rw [← ha]
    rfl
  | cons kv rest ih =>
    obtain ⟨k, v⟩ := kv
    intro a A rep h hnm p hnmA
    obtain ⟨a₁, acc, rep', ho, hrest, -⟩ := applyAll_cons_elim h
    have hnmRest : ∀ kv ∈ rest, kv.2.isMap = false := fun kv hkv => hnm kv (by simp [hkv])
    have ha₁nm : ∀ M, entry a₁ p ≠ some (Val.map M) := by
      intro M hM
      obtain ⟨M', hM'⟩ := applyAll_mapAt rest hrest hnmRest hM
      exact hnmA M' hM'
    have hstep := step_entry ho (hnm (k, v) (by simp)) p ha₁nm
    have hih := ih hrest hnmRest p hnmA
    by_cases hkp : pathKeys k = p
    · rw [hih, hstep, if_pos hkp]
      simp only [ovVals, if_pos hkp]
      rfl
    · rw [hih, hstep, if_neg hkp]
      simp only [ovVals, if_neg hkp]

/-- A run over a document with the same skeleton as `D`, all of whose
override paths are present in `D`, succeeds and preserves the skeleton. -/
theorem applyAll_skel : ∀ (ovs : List (String × Val)) {b D : Assoc}, SkelA b D →
    (∀ kv ∈ ovs, (entry D (pathKeys kv.1)).isSome ∧ kv.2.isMap = false) →
    ∃ b₂ rep, applyAll b ovs = some (b₂, rep) ∧ SkelA b₂ D := by
  intro ovs
  induction ovs with
  | nil => intro b D hsk _; exact ⟨b, [], rfl, hsk⟩
  | cons kv rest ih =>
    obtain ⟨k, v⟩ := kv
    intro b D hsk hc
    have hD : (entry D (pathKeys k)).isSome := (hc (k, v) (by simp)).1
    have hv : v.isMap = false := (hc (k, v) (by simp)).2
    have hcRest : ∀ kv ∈ rest, (entry D (pathKeys kv.1)).isSome ∧ kv.2.isMap = false :=
      fun kv hkv => hc kv (by simp [hkv])
    obtain ⟨w, hbw⟩ : ∃ w, entry b (pathKeys k) = some w := by
      rcases skel_entry (pathKeys k) hsk with ⟨-, h2⟩ | ⟨w, w', hbw, -, -⟩
      · rw [h2] at hD; simp at hD
      · exact ⟨w, hbw⟩
    cases hr : rejects b k v with
    | true =>
      have ho : applyOverride b k v = some (b, false) := by
        rw [applyOverride_eq, if_pos hr]
      obtain ⟨b₂, rep, hrun, hsk₂⟩ := ih hsk hcRest
      exact ⟨b₂, rep, by simp [applyAll_cons_intro ho hrun], hsk₂⟩
    | false =>
      obtain ⟨b₁, hset⟩ := setNested_isSome_of_entry (pathKeys k) v (pathKeys_ne_nil k)
        (by rw [hbw]; simp)
      have ho : applyOverride b k v = some (b₁, true) := by
        rw [applyOverride_eq, if_neg (by rw [hr]; simp), hset, Option.map_some']
      have hwnm : w.isMap = false := by
        cases w with
        | map M =>
          exfalso
          have hget : getNested b (pathKeys k) = Val.map M := by
            rw [getNested_eq_entry, hbw]; rfl
          unfold rejects at hr
          rw [hget] at hr
          simp [hv] at hr
        | null => rfl
        | bool bb => rfl
        | int n => rfl
        | float l => rfl
        | str s => rfl
        | list xs => rfl
      have hsk₁ : SkelA b₁ D := skelA_setNested (pathKeys k) hsk hset hbw hwnm hv
      obtain ⟨b₂, rep, hrun, hsk₂⟩ := ih hsk₁ hcRest
      exact ⟨b₂, k :: rep, by simp [applyAll_cons_intro ho hrun], hsk₂⟩

/-- Core idempotence: re-running the override loop on its own output (with the
same override list) reproduces that output.  `WFA base` is the key-uniqueness
invariant every Python dictionary satisfies; the override values are
non-mappings, as every parsed environment value is. -/
theorem applyAll_idem {base D : Assoc} {ovs : List (String × Val)} {rep : List String}
    (hwf : WFA base) (hnm : ∀ kv ∈ ovs, kv.2.isMap = false)
    (h : applyAll base ovs = some (D, rep)) :
    ∃ rep₂, applyAll D ovs = some (D, rep₂) := by
  have hwfD : WFA D := applyAll_wf ovs h hnm hwf
  have hpres := applyAll_present ovs h hnm
  obtain ⟨D₂, rep₂, hrun2, hsk⟩ :=
    applyAll_skel ovs (skelA_refl D) (fun kv hkv => ⟨hpres kv hkv, hnm kv hkv⟩)
  have hD₂ : D₂ = D := by
    apply skel_entry_eq D D₂ hwfD hsk
    intro p hcond
    have hcond₂ : ∀ M, entry D₂ p ≠ some (Val.map M) := by
      intro M hM
      rcases skel_entry p hsk with ⟨h1, -⟩ | ⟨w, w', hb, hd, hvv⟩
      · rw [h1] at hM; exact Option.noConfusion hM
      · rw [hb] at hM
        injection hM with hM
        subst hM
        cases hvv with
        | leaf ha _ => simp at ha
        | map hm =>
          rename_i md
          exact hcond md hd
    have e2 := applyAll_entry ovs hrun2 hnm p hcond₂
    have e1 := applyAll_entry ovs h hnm p hcond
    rw [e2, e1, foldT0_idem, ← e1]
  rw [hD₂] at hrun2
  exact ⟨rep₂, hrun2⟩

/-! ## Character and parser lemmas -/

theorem charToLower_of_isDigit {c : Char} (h : c.isDigit = true) : c.toLower = c := by
  simp only [Char.isDigit, Bool.and_eq_true, decide_eq_true_eq] at h
  obtain ⟨h1, h2⟩ := h
  have h2' : c.val.toNat ≤ 57 := UInt32.toNat_le_of_le (by decide) h2
  unfold Char.toLower
  rw [if_neg]
  intro hc
  obtain ⟨h3, h4⟩ := hc
  unfold Char.toNat at h3
  omega

theorem charToLower_of_isWhitespace {c : Char} (h : c.isWhitespace = true) : c.toLower = c := by
  simp only [Char.isWhitespace, Bool.or_eq_true, decide_eq_true_eq] at h
  rcases h with ((h | h) | h) | h <;> subst h <;> decide

theorem notDigit_of_toLower {c x : Char} (h : c.toLower = x) (hx : x.isDigit = false) :
    c.isDigit = false := by
  cases hd : c.isDigit
  · rfl
  · rw [charToLower_of_isDigit hd] at h
    rw [h] at hd
    rw [hd] at hx
    exact Bool.noConfusion hx

theorem notWS_of_toLower {c x : Char} (h : c.toLower = x) (hx : x.isWhitespace = false) :
    c.isWhitespace = false := by
  cases hd : c.isWhitespace
  · rfl
  · rw [charToLower_of_isWhitespace hd] at h
    rw [h] at hd
    rw [hd] at hx
    exact Bool.noConfusion hx

theorem notSign_of_toLower {c x : Char} (h : c.toLower = x) (hp : x ≠ '+') (hm : x ≠ '-') :
    c ≠ '+' ∧ c ≠ '-' := by
  constructor
  · intro hc
    subst hc
    rw [show Char.toLower '+' = '+' from by decide] at h
    exact hp h.symm
  · intro hc
    subst hc
    rw [show Char.toLower '-' = '-' from by decide] at h
    exact hm h.symm

theorem dropWhile_eq_self_of {P : Char → Bool} {l : List Char}
    (h : ∀ c ∈ l, P c = false) : l.dropWhile P = l := by
  cases l with
  | nil => rfl
  | cons c r => rw [List.dropWhile_cons, if_neg (by rw [h c (by simp)]; simp)]

theorem stripWS_eq_self {l : List Char} (h : ∀ c ∈ l, c.isWhitespace = false) :
    stripWS l = l := by
  unfold stripWS
  rw [dropWhile_eq_self_of h, dropWhile_eq_self_of (by intro c hc; exact h c (by simpa using hc)),
    List.reverse_reverse]

theorem stripSign1_eq_self {l : List Char} (h : ∀ c ∈ l, c ≠ '+' ∧ c ≠ '-') :
    stripSign1 l = l := by
  cases l with
  | nil => rfl
  | cons c r =>
    show (if c = '+' ∨ c = '-' then r else c :: r) = c :: r
    rw [if_neg]
    rintro (hc | hc)
    · exact (h c (by simp)).1 hc
    · exact (h c (by simp)).2 hc

theorem digitsVal_none_of_no_digit {l : List Char} (h : ∀ c ∈ l, c.isDigit = false) :
    digitsVal l = none := by
  cases l with
  | nil => rfl
  | cons c r => rw [digitsVal, if_neg (by rw [h c (by simp)]; simp)]

theorem splitDot1_fst_subset : ∀ (l : List Char), ∀ c ∈ (splitDot1 l).1, c ∈ l := by
  intro l
  induction l with
  | nil => intro c hc; simp [splitDot1] at hc
  | cons a r ih =>
    intro c hc
    rw [splitDot1] at hc
    by_cases ha : a = '.'
    · rw [if_pos ha] at hc; simp at hc
    · rw [if_neg ha] at hc
      simp only [List.mem_cons] at hc
      rcases hc with rfl | hc
      · simp
      · exact List.mem_cons_of_mem _ (ih c hc)

theorem splitDot1_snd_subset : ∀ (l f : List Char), (splitDot1 l).2 = some f →
    ∀ c ∈ f, c ∈ l := by
  intro l
  induction l with
  | nil => intro f hf; simp [splitDot1] at hf
  | cons a r ih =>
    intro f hf c hc
    rw [splitDot1] at hf
    by_cases ha : a = '.'
    · rw [if_pos ha] at hf
      simp at hf
      subst hf
      exact List.mem_cons_of_mem _ hc
    · rw [if_neg ha] at hf
      exact List.mem_cons_of_mem _ (ih f hf c hc)

theorem splitExp_fst_subset : ∀ (l : List Char), ∀ c ∈ (splitExp l).1, c ∈ l := by
  intro l
  induction l with
  | nil => intro c hc; simp [splitExp] at hc
  | cons a r ih =>
    intro c hc
    rw [splitExp] at hc
    by_cases ha : a = 'e' ∨ a = 'E'
    · rw [if_pos ha] at hc; simp at hc
    · rw [if_neg ha] at hc
      simp only [List.mem_cons] at hc
      rcases hc with rfl | hc
      · simp
      · exact List.mem_cons_of_mem _ (ih c hc)

theorem mantOK_false_of_no_digit {m : List Char} (h : ∀ c ∈ m, c.isDigit = false) :
    mantOK m = false := by
  unfold mantOK
  cases hp : splitDot1 m with
  | mk i fo =>
    have hi : ∀ c ∈ i, c.isDigit = false := by
      intro c hc
      exact h c (splitDot1_fst_subset m c (by rw [hp]; exact hc))
    cases fo with
    | none => simp [digitsVal_none_of_no_digit hi]
    | some f =>
      have hf : ∀ c ∈ f, c.isDigit = false := by
        intro c hc
        exact h c (splitDot1_snd_subset m f (by rw [hp]) c hc)
      by_cases hinil : i = []
      · simp [hinil, digitsVal_none_of_no_digit hf]
      · by_cases hfnil : f = []
        · simp [hinil, hfnil, digitsVal_none_of_no_digit hi]
        · simp [hinil, hfnil, digitsVal_none_of_no_digit hi]

theorem floatNumOK_false_of_no_digit {l : List Char} (h : ∀ c ∈ l, c.isDigit = false) :
    floatNumOK l = false := by
  unfold floatNumOK
  cases hp : splitExp l with
  | mk m eo =>
    have hm : ∀ c ∈ m, c.isDigit = false := by
      intro c hc
      exact h c (splitExp_fst_subset l c (by rw [hp]; exact hc))
    cases eo with
    | none => simp [mantOK_false_of_no_digit hm]
    | some e => simp [mantOK_false_of_no_digit hm]

theorem pyInt_none_of (t : String)
    (hnw : ∀ c ∈ t.data, c.isWhitespace = false)
    (hns : ∀ c ∈ t.data, c ≠ '+' ∧ c ≠ '-')
    (hnd : ∀ c ∈ t.data, c.isDigit = false) : pyInt t = none := by
  unfold pyInt
  rw [stripWS_eq_self hnw]
  cases hd : t.data with
  | nil => rfl
  | cons c r =>
    have hc := hns c (by rw [hd]; simp)
    show (if c = '+' then (digitsVal r).map (fun n => (n : Int))
        else if c = '-' then (digitsVal r).map (fun n => -(n : Int))
        else (digitsVal (c :: r)).map (fun n => (n : Int))) = none
    rw [if_neg hc.1, if_neg hc.2]
    rw [digitsVal, if_neg (by rw [hnd c (by rw [hd]; simp)]; simp)]
    rfl

theorem pyFloat_none_of (t : String)
    (hnw : ∀ c ∈ t.data, c.isWhitespace = false)
    (hns : ∀ c ∈ t.data, c ≠ '+' ∧ c ≠ '-')
    (hnd : ∀ c ∈ t.data, c.isDigit = false)
    (h1 : pyLower t ≠ "inf") (h2 : pyLower t ≠ "infinity") (h3 : pyLower t ≠ "nan") :
    pyFloat t = none := by
  unfold pyFloat
  simp only [stripWS_eq_self hnw, stripSign1_eq_self hns]
  have heta : (⟨t.data⟩ : String) = t := rfl
  rw [heta, if_neg (by push_neg; exact ⟨h1, h2, h3⟩),
    if_neg (by rw [floatNumOK_false_of_no_digit hnd]; simp)]

/-- Single-value parsing falls through to the unchanged string when the
characters rule out both numeric forms. -/
theorem parse_single_str_of (t : String)
    (hnw : ∀ c ∈ t.data, c.isWhitespace = false)
    (hns : ∀ c ∈ t.data, c ≠ '+' ∧ c ≠ '-')
    (hnd : ∀ c ∈ t.data, c.isDigit = false)
    (h1 : pyLower t ≠ "inf") (h2 : pyLower t ≠ "infinity") (h3 : pyLower t ≠ "nan") :
    parse_single_value t = Val.str t := by
  unfold parse_single_value
  rw [pyInt_none_of t hnw hns hnd, pyFloat_none_of t hnw hns hnd h1 h2 h3]

theorem parse_single_value_shape (s : String) :
    (∃ n, parse_single_value s = Val.int n) ∨ (∃ l, parse_single_value s = Val.float l) ∨
    (∃ t, parse_single_value s = Val.str t) := by
  unfold parse_single_value
  cases pyInt s with
  | some n => exact Or.inl ⟨n, rfl⟩
  | none =>
    cases pyFloat s with
    | some l => exact Or.inr (Or.inl ⟨l, rfl⟩)
    | none => exact Or.inr (Or.inr ⟨s, rfl⟩)

theorem parse_single_value_not_map (s : String) : (parse_single_value s).isMap = false := by
  rcases parse_single_value_shape s with ⟨n, h⟩ | ⟨l, h⟩ | ⟨t, h⟩ <;> rw [h] <;> rfl

theorem parse_single_value_not_list (s : String) : (parse_single_value s).isList = false := by
  rcases parse_single_value_shape s with ⟨n, h⟩ | ⟨l, h⟩ | ⟨t, h⟩ <;> rw [h] <;> rfl

theorem parse_value_not_map (s : String) : (parse_value s).isMap = false := by
  unfold parse_value
  split_ifs <;> first | rfl | exact parse_single_value_not_map s

theorem envToStormConfig_not_map (env : List (String × String)) :
    ∀ kv ∈ envToStormConfig env, kv.2.isMap = false := by
  intro kv hkv
  unfold envToStormConfig at hkv
  rw [List.mem_filterMap] at hkv
  obtain ⟨⟨name, val⟩, -, hmap⟩ := hkv
  cases hd : decodeKey "STORM_" name with
  | none => rw [hd] at hmap; exact Option.noConfusion hmap
  | some key =>
    rw [hd, Option.map_some'] at hmap
    injection hmap with hmap
    rw [← hmap]
    exact parse_value_not_map val

/-- Replacing double underscores by dots and then splitting on dots is the
same as splitting on double underscores, as long as the input contains no
dot of its own: the decode transform's one-pass character semantics. -/
theorem splitDot_replaceUU : ∀ (l : List Char), ¬ '.' ∈ l →
    splitCh '.' (replaceUU l) = splitUU l
  | [], _ => rfl
  | [c], h => by
    have hc : c ≠ '.' := by simp at h; exact fun hh => h hh.symm
    simp only [replaceUU, splitUU, splitCh]
    rw [if_neg fun hh => hc (by simpa using hh)]
  | c1 :: c2 :: r, h => by
    have h1 : c1 ≠ '.' := by simp at h; exact fun hh => h.1 hh.symm
    have h2 : ¬ '.' ∈ c2 :: r := by simp at h ⊢; exact ⟨h.2.1, h.2.2⟩
    have h3 : ¬ '.' ∈ r := by simp at h ⊢; exact h.2.2
    simp only [replaceUU, splitUU]
    by_cases hu : c1 = '_' ∧ c2 = '_'
    · rw [if_pos hu, if_pos hu, splitCh, if_pos rfl, splitDot_replaceUU r h3]
    · rw [if_neg hu, if_neg hu, splitCh, if_neg fun hh => h1 (by simpa using hh),
        splitDot_replaceUU (c2 :: r) h2]

theorem mem_insEnv {p q : String × String} {l : List (String × String)} :
    q ∈ insEnv p l ↔ q = p ∨ q ∈ l := by
  induction l with
  | nil => simp [insEnv]
  | cons hd t ih =>
    rw [insEnv]
    by_cases h : hd.1 < p.1
    · rw [if_pos h]
      simp only [List.mem_cons, ih]
      tauto
    · rw [if_neg h]
      simp only [List.mem_cons]

theorem mem_sortEnv {q : String × String} {l : List (String × String)} :
    q ∈ sortEnv l ↔ q ∈ l := by
  induction l with
  | nil => simp [sortEnv]
  | cons hd t ih =>
    rw [sortEnv, mem_insEnv, ih]
    simp

theorem splitCh_length_pos (c : Char) (l : List Char) : 1 ≤ (splitCh c l).length :=
  List.length_pos.mpr (splitCh_ne_nil c l)

theorem splitCh_length_two {c : Char} {l : List Char} (h : c ∈ l) :
    2 ≤ (splitCh c l).length := by
  induction l with
  | nil => simp at h
  | cons a r ih =>
    rw [splitCh]
    by_cases hac : a = c
    · rw [if_pos hac]
      have := splitCh_length_pos c r
      simp only [List.length_cons]
      omega
    · rw [if_neg hac]
      have hcr : c ∈ r := by
        rcases List.mem_cons.mp h with h1 | h1
        · exact absurd h1.symm hac
        · exact h1
      have h2 := ih hcr
      cases hs : splitCh c r with
      | nil => exact absurd hs (splitCh_ne_nil c r)
      | cons x xs =>
        rw [hs] at h2
        simpa using h2

/-- The pieces `true`/`false` (any casing) of a comma-separated value parse
to the literal strings, since they survive neither `int()` nor `float()`. -/
theorem parse_single_true_false (t : String)
    (h : pyLower t = "true" ∨ pyLower t = "false") : parse_single_value t = Val.str t := by
  have hmap : t.data.map Char.toLower = "true".data ∨
      t.data.map Char.toLower = "false".data := by
    rcases h with h | h
    · exact Or.inl (congrArg String.data h)
    · exact Or.inr (congrArg String.data h)
  have step : ∀ (c x : Char), Char.toLower c = x → x.isDigit = false →
      x.isWhitespace = false → x ≠ '+' → x ≠ '-' →
      c.isDigit = false ∧ c.isWhitespace = false ∧ c ≠ '+' ∧ c ≠ '-' := by
    intro c x hx h1 h2 h3 h4
    obtain ⟨hp, hm⟩ := notSign_of_toLower hx h3 h4
    exact ⟨notDigit_of_toLower hx h1, notWS_of_toLower hx h2, hp, hm⟩
  have hfacts : ∀ c ∈ t.data, c.isDigit = false ∧ c.isWhitespace = false ∧
      c ≠ '+' ∧ c ≠ '-' := by
    intro c hc
    rcases hmap with hm | hm
    · have hmem : Char.toLower c ∈ "true".data := by
        rw [← hm]
        exact List.mem_map_of_mem Char.toLower hc
      rw [show "true".data = ['t', 'r', 'u', 'e'] from rfl] at hmem
      simp only [List.mem_cons, List.not_mem_nil, or_false] at hmem
      rcases hmem with hx | hx | hx | hx <;>
        exact step c _ hx (by decide) (by decide) (by decide) (by decide)
    · have hmem : Char.toLower c ∈ "false".data := by
        rw [← hm]
        exact List.mem_map_of_mem Char.toLower hc
      rw [show "false".data = ['f', 'a', 'l', 's', 'e'] from rfl] at hmem
      simp only [List.mem_cons, List.not_mem_nil, or_false] at hmem
      rcases hmem with hx | hx | hx | hx | hx <;>
        exact step c _ hx (by decide) (by decide) (by decide) (by decide)
  refine parse_single_str_of t (fun c hc => (hfacts c hc).2.1)
    (fun c hc => ⟨(hfacts c hc).2.2.1, (hfacts c hc).2.2.2⟩)
    (fun c hc => (hfacts c hc).1) ?_ ?_ ?_ <;>
    rcases h with h | h <;> rw [h] <;> decide

/-! ## Claim theorems -/

/-- C1: for every override whose dotted path resolves to an existing entry in
the document, the merge engine rejects the override (returning the document
unchanged and not recording the key as accepted) iff the existing value is a
list and the new value is not a list, or the existing value is a mapping and
the new value is not a mapping; in every other case (existing scalar or null
vs. anything, existing list vs. new list) the override is accepted and set at
the path. -/
theorem c1_conflict_policy (cfg : Assoc) (key : String) (v : Val)
    (h : (entry cfg (pathKeys key)).isSome) :
    (applyOverride cfg key v = some (cfg, false) ↔
      ((getNested cfg (pathKeys key)).isList = true ∧ v.isList = false) ∨
      ((getNested cfg (pathKeys key)).isMap = true ∧ v.isMap = false)) ∧
    (¬(((getNested cfg (pathKeys key)).isList = true ∧ v.isList = false) ∨
       ((getNested cfg (pathKeys key)).isMap = true ∧ v.isMap = false)) →
      ∃ cfg₂, setNested cfg (pathKeys key) v = some cfg₂ ∧
        applyOverride cfg key v = some (cfg₂, true)) := by
  constructor
  · constructor
    · intro happ
      rcases applyOverride_accept happ with ⟨hr, -, -⟩ | ⟨-, hacc, -⟩
      · unfold rejects at hr
        simp only [Bool.and_eq_true, Bool.not_eq_true', Bool.or_eq_true] at hr
        exact hr.2
      · exact absurd hacc (by simp)
    · intro hdisj
      have hnull : (getNested cfg (pathKeys key)).isNull = false := by
        rcases hdisj with ⟨h1, -⟩ | ⟨h1, -⟩
        · cases hg : getNested cfg (pathKeys key) <;> rw [hg] at h1 <;> simp_all
        · cases hg : getNested cfg (pathKeys key) <;> rw [hg] at h1 <;> simp_all
      have hr : rejects cfg key v = true := by
        unfold rejects
        simp only [Bool.and_eq_true, Bool.not_eq_true', Bool.or_eq_true]
        exact ⟨hnull, hdisj⟩
      rw [applyOverride_eq, if_pos hr]
  · intro hdisj
    have hr : rejects cfg key v = false := by
      cases hrr : rejects cfg key v
      · rfl
      · exfalso
        unfold rejects at hrr
        simp only [Bool.and_eq_true, Bool.not_eq_true', Bool.or_eq_true] at hrr
        exact hdisj hrr.2
    obtain ⟨cfg₂, hset⟩ := setNested_isSome_of_entry (pathKeys key) v (pathKeys_ne_nil key) h
    exact ⟨cfg₂, hset,
      by rw [applyOverride_eq, if_neg (by rw [hr]; simp), hset, Option.map_some']⟩

/-- C1 witness: with existing document `{topology: {workers: [1,2,3]}}`, the
override `topology.workers = 5` (scalar against list) is rejected and the
document is unchanged. -/
theorem c1_conflict_policy_witness :
    applyOverride
      [("topology", Val.map [("workers", Val.list [Val.int 1, Val.int 2, Val.int 3])])]
      "topology.workers" (Val.int 5) =
    some ([("topology", Val.map [("workers", Val.list [Val.int 1, Val.int 2, Val.int 3])])],
      false) :=
  (c1_conflict_policy
    [("topology", Val.map [("workers", Val.list [Val.int 1, Val.int 2, Val.int 3])])]
    "topology.workers" (Val.int 5) rfl).1.mpr (Or.inl ⟨rfl, rfl⟩)

/-- C2 counterexample: `set` is not total — writing below the scalar stored at
`a` raises a `TypeError` in the Python code, modelled by the `none` result,
rather than overwriting the non-mapping intermediate. -/
theorem c2_set_raises_cex :
    setNested [("a", Val.int 5)] (pathKeys "a.b") (Val.int 1) = none := rfl

/-- C2 amended: `set` walks the path creating empty ordered mappings at
missing intermediates and assigns at the final segment, but it fails (raises)
exactly when some strict non-empty prefix position of the path currently
holds a non-mapping value; on success the value sits at the path and every
strict prefix position holds a mapping. -/
theorem c2_setNested_amended (m : Assoc) (p : List String) (v : Val) (hp : p ≠ []) :
    (setNested m p v = none ↔
      ∃ q t w, p = q ++ t ∧ q ≠ [] ∧ t ≠ [] ∧ entry m q = some w ∧ w.isMap = false) ∧
    (∀ m₂, setNested m p v = some m₂ → entry m₂ p = some v) ∧
    (∀ m₂ q t, setNested m p v = some m₂ → p = q ++ t → t ≠ [] →
      ∃ M, entry m₂ q = some (Val.map M)) :=
  ⟨setNested_none_iff p m v hp,
   fun _ h => entry_setNested_self h,
   fun _ q t h hqt ht => entry_setNested_pre q (by rw [← hqt]; exact h) ht⟩

/-- C2 amended witness: the failing input `{a: 5}` with path `a.b` satisfies
the failure characterization (prefix `a` holds the non-mapping `5`). -/
theorem c2_setNested_amended_witness :
    ∃ q t w, pathKeys "a.b" = q ++ t ∧ q ≠ [] ∧ t ≠ [] ∧
      entry [("a", Val.int 5)] q = some w ∧ w.isMap = false :=
  (c2_setNested_amended [("a", Val.int 5)] (pathKeys "a.b") (Val.int 1) (by decide)).1.mp rfl

/-- C3 counterexample: the integer parse accepts surrounding whitespace
(CPython `int()` semantics), so `parse(" 5 ")` yields the integer `5`, not
the original string `" 5 "` that the claim mandates. -/
theorem c3_whitespace_cex :
    parse_value " 5 " = Val.int 5 ∧ parse_value " 5 " ≠ Val.str " 5 " := by
  constructor
  · rfl
  · intro h
    have h2 : Val.int 5 = Val.str " 5 " :=
      (show parse_value " 5 " = Val.int 5 from rfl).symm.trans h
    exact Val.noConfusion h2

/-- C3 amended: for comma-free inputs, parse returns null on the empty
string, booleans on case-insensitive `true`/`false`, otherwise the integer if
CPython `int()` accepts the string (optional sign, surrounding whitespace
allowed, underscores between digits), on failure the float if CPython
`float()` accepts it, and on failure the original string unchanged; no error
is ever raised. -/
theorem c3_parse_comma_free_amended (s : String) (hc : ¬ ',' ∈ s.data) :
    (s = "" → parse_value s = Val.null) ∧
    (s ≠ "" → pyLower s = "true" → parse_value s = Val.bool true) ∧
    (s ≠ "" → pyLower s = "false" → parse_value s = Val.bool false) ∧
    (s ≠ "" → pyLower s ≠ "true" → pyLower s ≠ "false" →
      ((∃ n, pyInt s = some n ∧ parse_value s = Val.int n) ∨
       (pyInt s = none ∧ ∃ l, pyFloat s = some l ∧ parse_value s = Val.float l) ∨
       (pyInt s = none ∧ pyFloat s = none ∧ parse_value s = Val.str s))) := by
  have hdata : ∀ (t : String), t ≠ "" → ¬ t.data = [] := by
    intro t ht h
    apply ht
    cases t with
    | mk d => exact congrArg String.mk h
  refine ⟨?_, ?_, ?_, ?_⟩
  · intro h
    unfold parse_value
    rw [if_pos (show s.data = [] by simp [h])]
  · intro hne htrue
    unfold parse_value
    rw [if_neg (hdata s hne), if_pos htrue]
  · intro hne hfalse
    unfold parse_value
    rw [if_neg (hdata s hne), if_neg (by rw [hfalse]; decide), if_pos hfalse]
  · intro hne htrue hfalse
    have hpv : parse_value s = parse_single_value s := by
      unfold parse_value
      rw [if_neg (hdata s hne), if_neg htrue, if_neg hfalse, if_neg hc]
    unfold parse_single_value at hpv
    cases hi : pyInt s with
    | some n =>
      rw [hi] at hpv
      exact Or.inl ⟨n, rfl, hpv⟩
    | none =>
      rw [hi] at hpv
      cases hfl : pyFloat s with
      | some l =>
        rw [hfl] at hpv
        exact Or.inr (Or.inl ⟨rfl, l, rfl, hpv⟩)
      | none =>
        rw [hfl] at hpv
        exact Or.inr (Or.inr ⟨rfl, rfl, hpv⟩)

/-- C3 amended witness: `" 5 "` takes the integer branch with value `5`. -/
theorem c3_parse_comma_free_amended_witness :
    (∃ n, pyInt " 5 " = some n ∧ parse_value " 5 " = Val.int n) ∨
    (pyInt " 5 " = none ∧ ∃ l, pyFloat " 5 " = some l ∧ parse_value " 5 " = Val.float l) ∨
    (pyInt " 5 " = none ∧ pyFloat " 5 " = none ∧ parse_value " 5 " = Val.str " 5 ") :=
  (c3_parse_comma_free_amended " 5 " (by decide)).2.2.2 (by decide) (by decide) (by decide)

/-- C4 counterexample: a present file whose content parses to the non-mapping
`false` does not abort — the falsy value is treated as an empty document, the
run writes the (empty) result and exits 0, contradicting the claimed fatal
path. -/
theorem c4_falsy_content_cex :
    mainModel (.present (some (Val.bool false))) [] = (0, some []) := rfl

/-- C4 amended: an unparseable existing file, or one whose content is truthy
but cannot be converted to a mapping, aborts before any override with no
output written and exit code 1; falsy content (null from an empty file, 0,
false, an empty string/sequence/mapping) is instead treated as an empty
document and the run proceeds exactly as if the file were absent. -/
theorem c4_load_amended (env : List (String × String)) :
    mainModel (.present none) env = (1, none) ∧
    (∀ v, truthy v = true → toDict v = none →
      mainModel (.present (some v)) env = (1, none)) ∧
    (∀ v, truthy v = false →
      mainModel (.present (some v)) env = mainModel .absent env) := by
  refine ⟨rfl, ?_, ?_⟩
  · intro v ht hd
    have hl : loadBase (.present (some v)) = none := by
      show (if truthy v then toDict v else some []) = none
      rw [if_pos ht]
      exact hd
    unfold mainModel
    rw [hl]
  · intro v hf
    have hl : loadBase (.present (some v)) = some [] := by
      show (if truthy v then toDict v else some []) = some []
      rw [if_neg (by rw [hf]; simp)]
    unfold mainModel
    rw [hl]
    rfl

/-- C4 amended witness: content `5` (truthy, not convertible to a mapping)
aborts with exit 1 and nothing written. -/
theorem c4_load_amended_witness :
    mainModel (.present (some (Val.int 5))) [] = (1, none) :=
  (c4_load_amended []).2.1 (Val.int 5) rfl rfl

/-- C5: the merge is idempotent — feeding the written output of a successful
run back as the existing document and re-running with the identical
environment produces the same document (`WFA base` is the key-uniqueness
invariant that every Python dictionary satisfies). -/
theorem c5_merge_idempotent (file : FileState) (env : List (String × String))
    (base D : Assoc) (hload : loadBase file = some base) (hwf : WFA base)
    (hrun : mainModel file env = (0, some D)) :
    mainModel (.present (some (Val.map D))) env = (0, some D) := by
  have hmain : mainModel file env =
      (match applyAll base (envToStormConfig env) with
        | none => (1, none)
        | some (final, _) => (0, some final)) := by
    unfold mainModel
    rw [hload]
  rw [hmain] at hrun
  cases happ : applyAll base (envToStormConfig env) with
  | none => rw [happ] at hrun; simp at hrun
  | some pr =>
    obtain ⟨final, rep⟩ := pr
    rw [happ] at hrun
    have h3 : final = D := by simpa using hrun
    subst h3
    obtain ⟨rep₂, hrun2⟩ := applyAll_idem hwf (envToStormConfig_not_map env) happ
    have hl2 : loadBase (.present (some (Val.map final))) = some final := by
      cases final with
      | nil => rfl
      | cons hd t => rfl
    unfold mainModel
    rw [hl2]
    show (match applyAll final (envToStormConfig env) with
      | none => ((1 : Nat), (none : Option Assoc))
      | some (final, _) => (0, some final)) = (0, some final)
    rw [hrun2]

/-- C5 witness: one run from an absent file with `STORM_UI__PORT=8080`
produces `{ui: {port: 8080}}`; re-running on that output reproduces it. -/
theorem c5_merge_idempotent_witness :
    mainModel (.present (some (Val.map [("ui", Val.map [("port", Val.int 8080)])])))
      [("STORM_UI__PORT", "8080")] = (0, some [("ui", Val.map [("port", Val.int 8080)])]) :=
  c5_merge_idempotent .absent [("STORM_UI__PORT", "8080")] []
    [("ui", Val.map [("port", Val.int 8080)])] rfl WFA.nil rfl

/-- C6 counterexample: the code enforces no non-emptiness requirement — a
variable named exactly like the `STORM_` marker decodes to the empty dotted
path and is processed as a candidate override rather than excluded. -/
theorem c6_empty_path_cex :
    decodeKey "STORM_" "STORM_" = some "" ∧
    envToStormConfig [("STORM_", "x")] = [("", Val.str "x")] := ⟨rfl, rfl⟩

/-- C6 amended: a variable is skipped iff its name does not start with the
marker; otherwise the marker is stripped, the remainder lowercased and every
double-underscore occurrence replaced by a dot in one left-to-right pass, so
the resulting path segments are exactly the double-underscore-separated
pieces of the lowercased remainder (lone underscores stay inside segments);
the path may be empty and no non-emptiness check is performed. -/
theorem c6_decode_amended :
    (∀ name pfx : String, startsW name pfx = false → decodeKey pfx name = none) ∧
    (∀ name pfx : String, startsW name pfx = true →
      ¬ '.' ∈ (pyLower ⟨name.data.drop pfx.data.length⟩).data →
      ∃ k, decodeKey pfx name = some k ∧
        pathKeys k = (splitUU (pyLower ⟨name.data.drop pfx.data.length⟩).data).map
          (fun l => String.mk l)) ∧
    decodeKey "STORM_" "STORM_SUPERVISOR__SLOTS__PORTS" = some "supervisor.slots.ports" ∧
    decodeKey "STORM_" "STORM_WORKER_CHILDOPTS" = some "worker_childopts" := by
  refine ⟨?_, ?_, rfl, rfl⟩
  · intro name pfx h
    unfold decodeKey
    rw [if_neg (by rw [h]; simp)]
  · intro name pfx h hdot
    refine ⟨⟨replaceUU (pyLower ⟨name.data.drop pfx.data.length⟩).data⟩, ?_, ?_⟩
    · unfold decodeKey
      rw [if_pos h]
    · unfold pathKeys
      exact congrArg (List.map fun l => String.mk l) (splitDot_replaceUU _ hdot)

/-- C6 amended witness: `STORM_A___B` decodes (one pass over double
underscores) to segments `a` and `_b`. -/
theorem c6_decode_amended_witness :
    ∃ k, decodeKey "STORM_" "STORM_A___B" = some k ∧
      pathKeys k = (splitUU (pyLower ⟨("STORM_A___B".data.drop "STORM_".data.length)⟩).data).map
        (fun l => String.mk l) :=
  c6_decode_amended.2.1 "STORM_A___B" "STORM_" (by decide) (by decide)

/-- C7: a non-empty comma-containing input (not the empty/boolean cases)
parses to the ordered list of its comma-separated pieces, each trimmed and
parsed as a single value; the list has one element per piece (at least two),
and no element is itself a list. -/
theorem c7_comma_list (s : String) (hc : ',' ∈ s.data) (hne : s ≠ "")
    (ht : pyLower s ≠ "true") (hf : pyLower s ≠ "false") :
    parse_value s =
      Val.list ((splitCh ',' s.data).map fun l => parse_single_value ⟨stripWS l⟩) ∧
    2 ≤ (splitCh ',' s.data).length ∧
    ∀ x ∈ (splitCh ',' s.data).map (fun l => parse_single_value ⟨stripWS l⟩),
      x.isList = false := by
  have hd : ¬ s.data = [] := by
    intro h
    apply hne
    cases s with
    | mk d => exact congrArg String.mk h
  refine ⟨?_, splitCh_length_two hc, ?_⟩
  · unfold parse_value
    rw [if_neg hd, if_neg ht, if_neg hf, if_pos hc]
  · intro x hx
    rw [List.mem_map] at hx
    obtain ⟨l, -, hl⟩ := hx
    rw [← hl]
    exact parse_single_value_not_list _

/-- C7 witness: `parse("6700,6701,6702")` is the ordered integer list
`[6700, 6701, 6702]`. -/
theorem c7_comma_list_witness :
    parse_value "6700,6701,6702" = Val.list [Val.int 6700, Val.int 6701, Val.int 6702] :=
  ((c7_comma_list "6700,6701,6702" (by decide) (by decide) (by decide) (by decide)).1).trans
    rfl

/-- C8: insertion order is preserved through `set` (and hence serialization,
which emits mapping keys in stored order without re-sorting): setting `a.b`,
then `a.c`, then re-setting `a.b` yields the mapping with `b` (updated in
place) before `c`, for any values. -/
theorem c8_insertion_order (v1 v2 v3 : Val) :
    ((setNested [] (pathKeys "a.b") v1).bind fun d1 =>
      (setNested d1 (pathKeys "a.c") v2).bind fun d2 =>
        setNested d2 (pathKeys "a.b") v3) =
      some [("a", Val.map [("b", v3), ("c", v2)])] ∧
    [("b", v3), ("c", v2)].map Prod.fst = ["b", "c"] := ⟨rfl, rfl⟩

/-- C9: a run that passes the load step always writes: with an absent, empty
or empty-mapping existing document and no matching environment variables, a
valid empty document is still written and the process exits 0. -/
theorem c9_unconditional_write (file : FileState) (env : List (String × String))
    (hfile : file = .absent ∨ file = .present (some Val.null) ∨
      file = .present (some (Val.map [])))
    (henv : ∀ kv ∈ env, startsW kv.1 "STORM_" = false) :
    mainModel file env = (0, some []) := by
  have hload : loadBase file = some [] := by
    rcases hfile with rfl | rfl | rfl <;> rfl
  have hcfg : envToStormConfig env = [] := by
    unfold envToStormConfig
    rw [List.filterMap_eq_nil_iff]
    intro kv hkv
    have hdk : decodeKey "STORM_" kv.1 = none := by
      unfold decodeKey
      rw [if_neg (by rw [henv kv (mem_sortEnv.mp hkv)]; simp)]
    rw [hdk]
    rfl
  unfold mainModel
  rw [hload, hcfg]
  rfl

/-- C9 witness: absent document, only a non-matching variable: the empty
document is written and the exit code is 0. -/
theorem c9_unconditional_write_witness :
    mainModel .absent [("PATH", "/bin")] = (0, some []) :=
  c9_unconditional_write .absent [("PATH", "/bin")] (Or.inl rfl) (by decide)

/-- C10: every element of a list produced by parse is an integer, a float or
a string — never a boolean and never null; within a comma-separated value the
pieces `true`/`false` (any case) become the literal strings and an empty
piece becomes the empty string, the empty-string-to-null and boolean rules
applying only to whole comma-free inputs. -/
theorem c10_list_elements :
    (∀ (s : String) (xs : List Val), parse_value s = Val.list xs →
      ∀ x ∈ xs, (∃ n, x = Val.int n) ∨ (∃ l, x = Val.float l) ∨ (∃ t, x = Val.str t)) ∧
    (∀ t : String, pyLower t = "true" ∨ pyLower t = "false" →
      parse_single_value t = Val.str t) ∧
    parse_single_value "" = Val.str "" := by
  refine ⟨?_, parse_single_true_false, rfl⟩
  intro s xs h x hx
  unfold parse_value at h
  by_cases h1 : s.data = []
  · rw [if_pos h1] at h
    exact Val.noConfusion h
  rw [if_neg h1] at h
  by_cases h2 : pyLower s = "true"
  · rw [if_pos h2] at h
    exact Val.noConfusion h
  rw [if_neg h2] at h
  by_cases h3 : pyLower s = "false"
  · rw [if_pos h3] at h
    exact Val.noConfusion h
  rw [if_neg h3] at h
  by_cases h4 : ',' ∈ s.data
  · rw [if_pos h4] at h
    injection h with h
    rw [← h] at hx
    rw [List.mem_map] at hx
    obtain ⟨l, -, hl⟩ := hx
    rcases parse_single_value_shape ⟨stripWS l⟩ with ⟨n, hs⟩ | ⟨ll, hs⟩ | ⟨t, hs⟩ <;>
      rw [hs] at hl
    · exact Or.inl ⟨n, hl.symm⟩
    · exact Or.inr (Or.inl ⟨ll, hl.symm⟩)
    · exact Or.inr (Or.inr ⟨t, hl.symm⟩)
  · rw [if_neg h4] at h
    rcases parse_single_value_shape s with ⟨n, hs⟩ | ⟨ll, hs⟩ | ⟨t, hs⟩ <;>
      rw [hs] at h <;> exact Val.noConfusion h

/-- C10 witness: the pieces of `"true,,5"` come out as the string `"true"`,
the empty string and the integer `5` — no booleans, no nulls. -/
theorem c10_list_elements_witness :
    (∃ n, Val.str "true" = Val.int n) ∨ (∃ l, Val.str "true" = Val.float l) ∨
      (∃ t, Val.str "true" = Val.str t) :=
  c10_list_elements.1 "true,,5" [Val.str "true", Val.str "", Val.int 5] rfl
    (Val.str "true") (by simp)

end StormCfg
